import Mathlib

set_option autoImplicit false

/-!
Verification development for the api-mutator proxy core
(`src/core/mixer.py`, `src/core/permutations.py`, `src/core/views.py`).
The Python code is shallowly embedded: dicts become insertion-ordered
association lists, exceptions become `Except` / `Option`, the seeded RNG
draws (`random.Random(seed).sample` / `.choice`) and the `humps` renaming
helpers become explicit oracle parameters, and the compiled path regexes
(`re.sub(r'\x7b(.+?)\x7d', r'(?P<\1>.+)', path)` matched with `re.match`)
become a tokenizer plus an executable backtracking prefix matcher.
-/

namespace ApiMutator

/-! ## Association lists modelling Python dicts (insertion order, last write wins) -/

def assocGet {α β : Type} [BEq α] : List (α × β) → α → Option β
  | [], _ => none
  | (k', v) :: rest, k => if k' == k then some v else assocGet rest k

def assocHas {α β : Type} [BEq α] (l : List (α × β)) (k : α) : Bool :=
  (assocGet l k).isSome

/-- Python `d[k] = v` on a dict: an existing key keeps its position and gets the
new value, a new key is appended. -/
def dictInsert {α β : Type} [BEq α] (l : List (α × β)) (k : α) (v : β) : List (α × β) :=
  if assocHas l k then l.map (fun e => if e.1 == k then (e.1, v) else e) else l ++ [(k, v)]

/-- Python `d.setdefault(k, v)`: returns the stored value (existing one if present). -/
def dictSetdefault {α β : Type} [BEq α] (l : List (α × β)) (k : α) (v : β) :
    β × List (α × β) :=
  match assocGet l k with
  | some w => (w, l)
  | none => (v, l ++ [(k, v)])

def assocValues {α β : Type} (l : List (α × β)) : List β := l.map Prod.snd

/-! ## Path templates: `re.sub(r'\x7b(.+?)\x7d', r'(?P<\1>.+)', path)`

A path string is tokenized into literal characters and named holes.  The lazy
group `(.+?)` means: at a `{`, the name is the first character after it plus
everything up to the next following `}` (at least one character is required);
if no such `}` exists the `{` stays literal text. -/

inductive Tok where
  | lit (c : Char)
  | hole (n : String)
deriving Repr, BEq, DecidableEq

/-- Split a character list at the first `}`, returning the part before and after. -/
def breakAtClose : List Char → Option (List Char × List Char)
  | [] => none
  | c :: rest =>
      if c = '}' then some ([], rest)
      else (breakAtClose rest).map (fun p => (c :: p.1, p.2))

theorem breakAtClose_length {l a b : List Char} (h : breakAtClose l = some (a, b)) :
    b.length < l.length := by
  induction l generalizing a b with
  | nil => simp [breakAtClose] at h
  | cons c rest ih =>
      rw [breakAtClose] at h
      split at h
      · simp only [Option.some.injEq, Prod.mk.injEq] at h
        obtain ⟨h1, h2⟩ := h
        subst h2
        exact Nat.lt_succ_self _
      · cases hbr : breakAtClose rest with
        | none => rw [hbr] at h; simp at h
        | some p =>
            rw [hbr] at h
            simp only [Option.map_some', Option.some.injEq, Prod.mk.injEq] at h
            obtain ⟨h1, h2⟩ := h
            subst h2
            exact Nat.lt_trans (ih hbr) (Nat.lt_succ_self _)

def tokenizeF : Nat → List Char → List Tok
  | 0, _ => []
  | _, [] => []
  | fuel + 1, '{' :: c1 :: rest1 =>
      match breakAtClose rest1 with
      | some (mid, rest') => .hole (String.mk (c1 :: mid)) :: tokenizeF fuel rest'
      | none => .lit '{' :: tokenizeF fuel (c1 :: rest1)
  | fuel + 1, c :: rest => .lit c :: tokenizeF fuel rest

/-- The token list of a path template (the `Parameter.re_path` pattern). -/
def re_path (p : String) : List Tok := tokenizeF p.data.length p.data

/-! ## `pattern.match(s)`: backtracking prefix matcher

Each `\x7bx\x7d` became `(?P<x>.+)`: a greedy group matching one or more
arbitrary characters (including `/`).  `re.match` anchors at the start only;
trailing input is ignored.  Greedy backtracking tries the longest capture
first.  On success the named captures are returned in template order. -/

def reMatchG : List Tok → List Char → Option (List (String × String))
  | [], _ => some []
  | .lit _ :: _, [] => none
  | .lit c :: ts, d :: cs => if c = d then reMatchG ts cs else none
  | .hole n :: ts, cs =>
      ((List.range cs.length).reverse).findSome? (fun k =>
        (reMatchG ts (cs.drop (k + 1))).map
          (fun caps => (n, String.mk (cs.take (k + 1))) :: caps))

/-- Number of named groups of the pattern (`groupdict()` size on any match,
    for distinct hole names). -/
def countHoles (ts : List Tok) : Nat :=
  (ts.filter (fun t => match t with | .hole _ => true | _ => false)).length

/-- Declarative semantics of the pattern: a prefix of the input decomposes into
the literal characters and nonempty hole fillers, in order. -/
inductive Matches : List Tok → List Char → Prop where
  | nil (rest : List Char) : Matches [] rest
  | lit (c : Char) (ts : List Tok) (s : List Char) :
      Matches ts s → Matches (.lit c :: ts) (c :: s)
  | hole (n : String) (ts : List Tok) (w s : List Char) :
      w ≠ [] → Matches ts s → Matches (.hole n :: ts) (w ++ s)

theorem findSome?_eq_some_mem {α β : Type} {f : α → Option β} {l : List α} {b : β}
    (h : l.findSome? f = some b) : ∃ a ∈ l, f a = some b := by
  induction l with
  | nil => simp [List.findSome?] at h
  | cons x xs ih =>
      rw [List.findSome?] at h
      cases hx : f x with
      | none =>
          rw [hx] at h
          obtain ⟨a, ha, hfa⟩ := ih h
          exact ⟨a, List.mem_cons_of_mem _ ha, hfa⟩
      | some v =>
          rw [hx] at h
          cases h
          exact ⟨x, List.mem_cons_self _ _, hx⟩

theorem findSome?_isSome_of_mem {α β : Type} {f : α → Option β} {l : List α} {a : α}
    (ha : a ∈ l) (hb : (f a).isSome = true) : (l.findSome? f).isSome = true := by
  induction l with
  | nil => simp at ha
  | cons x xs ih =>
      rw [List.findSome?]
      cases hx : f x with
      | none =>
          rcases List.mem_cons.mp ha with rfl | ha'
          · rw [hx] at hb; simp at hb
          · exact ih ha'
      | some v => simp [hx]

theorem reMatchG_isSome_iff (ts : List Tok) (cs : List Char) :
    (reMatchG ts cs).isSome = true ↔ Matches ts cs := by
  induction ts generalizing cs with
  | nil =>
      constructor
      · intro _; exact Matches.nil cs
      · intro _; rfl
  | cons t ts ih =>
      cases t with
      | lit c =>
          cases cs with
          | nil =>
              simp only [reMatchG, Option.isSome_none]
              constructor
              · intro h; exact absurd h (by simp)
              · intro h; cases h
          | cons d cs' =>
              rw [reMatchG]
              by_cases hcd : c = d
              · subst hcd
                simp only [if_pos rfl]
                constructor
                · intro h; exact Matches.lit c ts cs' ((ih cs').mp h)
                · intro h; cases h with
                  | lit _ _ _ hm => exact (ih cs').mpr hm
              · simp only [if_neg hcd, Option.isSome_none]
                constructor
                · intro h; exact absurd h (by simp)
                · intro h
                  cases h with
                  | lit _ _ _ _ => exact absurd rfl hcd
      | hole n =>
          rw [reMatchG]
          constructor
          · intro h
            obtain ⟨b, hb⟩ := Option.isSome_iff_exists.mp h
            obtain ⟨k, hk, hfk⟩ := findSome?_eq_some_mem hb
            have hklt : k < cs.length := List.mem_range.mp (List.mem_reverse.mp hk)
            cases hrec : reMatchG ts (cs.drop (k + 1)) with
            | none => rw [hrec] at hfk; simp at hfk
            | some caps =>
                have hm : Matches ts (cs.drop (k + 1)) :=
                  (ih _).mp (by rw [hrec]; rfl)
                have hsplit : cs.take (k + 1) ++ cs.drop (k + 1) = cs :=
                  List.take_append_drop _ _
                have hne : cs.take (k + 1) ≠ [] := by
                  intro hemp
                  have h1 := congrArg List.length hemp
                  simp only [List.length_take, List.length_nil] at h1
                  omega
                exact hsplit ▸ Matches.hole n ts _ _ hne hm
          · intro h
            cases h with
            | hole _ _ w s hw hm =>
                have hlen : w.length ≥ 1 := by
                  cases w with
                  | nil => exact absurd rfl hw
                  | cons _ _ => simp
                have hk : w.length - 1 ∈ ((List.range (w ++ s).length).reverse) := by
                  rw [List.mem_reverse, List.mem_range, List.length_append]
                  omega
                refine findSome?_isSome_of_mem hk ?_
                have hdrop : (w ++ s).drop (w.length - 1 + 1) = s := by
                  have : w.length - 1 + 1 = w.length := by omega
                  rw [this]
                  exact List.drop_left w s
                rw [hdrop]
                cases hrec : reMatchG ts s with
                | none =>
                    have := (ih s).mpr hm
                    rw [hrec] at this
                    simp at this
                | some caps => rfl

/-- A successful match yields one capture per hole of the template. -/
theorem reMatchG_caps_length {ts : List Tok} {cs : List Char} {caps : List (String × String)}
    (h : reMatchG ts cs = some caps) : caps.length = countHoles ts := by
  induction ts generalizing cs caps with
  | nil =>
      rw [reMatchG] at h
      cases h
      rfl
  | cons t ts ih =>
      cases t with
      | lit c =>
          cases cs with
          | nil => rw [reMatchG] at h; cases h
          | cons d cs' =>
              rw [reMatchG] at h
              by_cases hcd : c = d
              · rw [if_pos hcd] at h
                have := ih h
                simpa [countHoles] using this
              · rw [if_neg hcd] at h; cases h
      | hole n =>
          rw [reMatchG] at h
          obtain ⟨k, _, hfk⟩ := findSome?_eq_some_mem h
          cases hrec : reMatchG ts (cs.drop (k + 1)) with
          | none => rw [hrec] at hfk; cases hfk
          | some caps' =>
              rw [hrec] at hfk
              simp only [Option.map_some', Option.some.injEq] at hfk
              subst hfk
              have := ih hrec
              simp [countHoles] at this ⊢
              omega

/-! ## `Parameter` (mixer.py lines 280-331)

A frozen dataclass `(path, method, in_, name)`; `method/in_/name` may be
`None` (wildcard).  `__eq__`: per field, `None` matches anything, otherwise
case-insensitive equality; for `path` additionally a side containing `\x7b`
matches if its pattern (compiled from the ORIGINAL-case path) `re.match`es the
other, lowercased, side. -/

structure Parameter where
  path : String
  method : Option String
  in_ : Option String
  name : Option String
deriving Repr, DecidableEq, Inhabited

/-- Python `str.lower()` (ASCII), kernel-reducible. -/
def pyLower (s : String) : String := String.mk (s.data.map Char.toLower)

/-- Python `str.upper()` (ASCII), kernel-reducible. -/
def pyUpper (s : String) : String := String.mk (s.data.map Char.toUpper)

/-- Python `c in s` for a single character, kernel-reducible. -/
def strHasChar (s : String) (c : Char) : Bool := s.data.contains c

def optFieldEq (a b : Option String) : Bool :=
  match a, b with
  | none, _ => true
  | _, none => true
  | some x, some y => pyLower x == pyLower y

def reMatchB (template observed : String) : Bool :=
  (reMatchG (re_path template) observed.data).isSome

def pathFieldEq (p q : String) : Bool :=
  let lp := pyLower p
  let lq := pyLower q
  (lp == lq) || (strHasChar lp '{' && reMatchB p lq) || (strHasChar lq '{' && reMatchB q lp)

/-- Embedding of `Parameter.__eq__` from mixer.py lines 300-331. -/
def Parameter.eq (a b : Parameter) : Bool :=
  pathFieldEq a.path b.path && optFieldEq a.method b.method
    && optFieldEq a.in_ b.in_ && optFieldEq a.name b.name

/-- Modelled from the spec: the claimed placeholder regex `(?P<x>[^/]+?)` with
anchors `^…$`, i.e. each hole matches exactly one nonempty slash-free segment
and the whole observed string must be consumed. -/
def specSegMatch : List Tok → List Char → Bool
  | [], [] => true
  | [], _ :: _ => false
  | .lit _ :: _, [] => false
  | .lit c :: ts, d :: cs => c == d && specSegMatch ts cs
  | .hole _ :: ts, cs =>
      (List.range cs.length).any (fun k =>
        ((cs.take (k + 1)).all (fun ch => ch != '/')) && specSegMatch ts (cs.drop (k + 1)))

/-- Modelled from the spec: `Parameter` equality as the claim states it, with
the anchored single-segment placeholder regex. -/
def specParameterEq (a b : Parameter) : Bool :=
  (let lp := pyLower a.path
   let lq := pyLower b.path
   (lp == lq) || (strHasChar lp '{' && specSegMatch (re_path a.path) lq.data)
     || (strHasChar lq '{' && specSegMatch (re_path b.path) lp.data))
  && optFieldEq a.method b.method && optFieldEq a.in_ b.in_ && optFieldEq a.name b.name

/-! ## Claim C2: `Parameter` equality -/

/-- Wildcard / case-insensitive agreement of one optional field, declaratively. -/
def OptFieldAgrees (a b : Option String) : Prop :=
  a = none ∨ b = none ∨ ∃ s t, a = some s ∧ b = some t ∧ pyLower s = pyLower t

/-- Declarative path agreement as the code implements it: equal lowercased
strings, or one side contains a brace and its pattern — built from the
ORIGINAL-case path, holes being greedy `(?P<x>.+)` groups — matches a PREFIX of
the lowercased other side (no end anchor, hole fillers may contain `/`). -/
def PathsAgree (p q : String) : Prop :=
  pyLower p = pyLower q
  ∨ (strHasChar (pyLower p) '{' = true ∧ Matches (re_path p) (pyLower q).data)
  ∨ (strHasChar (pyLower q) '{' = true ∧ Matches (re_path q) (pyLower p).data)

theorem optFieldEq_iff (a b : Option String) :
    optFieldEq a b = true ↔ OptFieldAgrees a b := by
  cases a with
  | none => simp [optFieldEq, OptFieldAgrees]
  | some x =>
      cases b with
      | none => simp [optFieldEq, OptFieldAgrees]
      | some y =>
          simp only [optFieldEq, OptFieldAgrees, beq_iff_eq]
          constructor
          · intro h
            exact Or.inr (Or.inr ⟨x, y, rfl, rfl, h⟩)
          · rintro (h | h | ⟨s, t, hs, ht, hst⟩)
            · cases h
            · cases h
            · cases hs; cases ht; exact hst

theorem pathFieldEq_iff (p q : String) :
    pathFieldEq p q = true ↔ PathsAgree p q := by
  simp only [pathFieldEq, PathsAgree, Bool.or_eq_true, Bool.and_eq_true, beq_iff_eq,
    reMatchB, reMatchG_isSome_iff, or_assoc]

/-- C2 (amended): two `Parameter`s are equal iff each of `method`, `in_`,
`name` agrees up to `None`-wildcards and lowercasing, and the paths agree under
the code's actual placeholder regex: greedy `(?P<x>.+)` holes (which may
consume `/` and hence several path segments), matching only a prefix of the
observed side (no `$` anchor), the pattern being compiled from the
original-case path and matched against the lowercased other side. -/
theorem c2_parameter_eq_characterization (a b : Parameter) :
    Parameter.eq a b = true ↔
      PathsAgree a.path b.path ∧ OptFieldAgrees a.method b.method
        ∧ OptFieldAgrees a.in_ b.in_ ∧ OptFieldAgrees a.name b.name := by
  simp only [Parameter.eq, Bool.and_eq_true, pathFieldEq_iff, optFieldEq_iff, and_assoc]

/-- C2 counterexample: under the claimed anchored single-segment regex
`^…(?P<x>[^/]+?)…$`, `/v1/users/{id}` would NOT equal
`/v1/users/42/posts`; under the code's `__eq__` it does, because `(?P<id>.+)`
greedily matches `42/posts` across the segment boundary. -/
theorem c2_counterexample :
    Parameter.eq ⟨"/v1/users/{id}", some "get", none, none⟩
        ⟨"/v1/users/42/posts", some "get", none, none⟩ = true
    ∧ specParameterEq ⟨"/v1/users/{id}", some "get", none, none⟩
        ⟨"/v1/users/42/posts", some "get", none, none⟩ = false := by
  constructor
  · decide
  · decide

/-! ## JSON values (for swagger `definitions` and response bodies) -/

inductive JVal where
  | null
  | bool (b : Bool)
  | num (n : Int)
  | str (s : String)
  | arr (items : List JVal)
  | obj (entries : List (String × JVal))
deriving Repr, Inhabited, BEq

/-! ## Swagger model

`paths`: path string → method → operation.  An operation records its
`parameters` list; `none` models the `'parameters'` key being absent (the code
distinguishes an absent key from an empty list in `as_parameters`). -/

structure PSpec where
  in_ : String
  name : String
deriving Repr, DecidableEq, Inhabited

abbrev Operation := Option (List PSpec)

abbrev Methods := List (String × Operation)

structure Swagger where
  paths : List (String × Methods)
  definitions : List (String × JVal)
deriving Repr, Inhabited

/-! ## `permute_paths` (permutations.py lines 17-61 = mixer.py lines 24-68)

The shuffled synonym dict `{key: rnd.sample(values + [key], k=len(values) + 1)
for ...}` is the oracle parameter `syn`; every theorem quantifies over it,
covering every seed's draw. -/

inductive PathsErr where
  | outOfSynonyms (token : String)
deriving Repr, DecidableEq

/-- Test for `re.match(r'v\d+', part)`: the segment starts with `v` and a digit. -/
def isVersionSeg (s : String) : Bool :=
  match s.data with
  | c0 :: c1 :: _ => c0 = 'v' && c1.isDigit
  | _ => false

/-- Test for `part.startswith('\x7b') and part.endswith('\x7d')`. -/
def isPlaceholderSeg (s : String) : Bool :=
  s.data.head? == some '{' && s.data.getLast? == some '}'

def splitOnChar (sep : Char) : List Char → List (List Char)
  | [] => [[]]
  | c :: rest =>
      match splitOnChar sep rest with
      | [] => [[]]
      | g :: gs => if c = sep then [] :: g :: gs else (c :: g) :: gs

/-- Python `path.split('/')`. -/
def pathSegs (p : String) : List String := (splitOnChar '/' p.data).map String.mk

/-- Python `'/'.join(parts)`. -/
def joinWithSlash : List String → String
  | [] => ""
  | [s] => s
  | s :: rest => s ++ "/" ++ joinWithSlash rest

/-- Synonym candidates for a token: the shuffled list, or `[part]` with a
logged warning when the token is unknown. -/
def synCandidates (syn : List (String × List String)) (part : String) : List String :=
  (assocGet syn part).getD [part]

/-- One segment of `permute_path`, threading the memo table `part_to_name`. -/
def permutePart (syn : List (String × List String)) (seed : Nat)
    (tbl : List (String × String)) (part : String) :
    Except PathsErr (String × List (String × String)) :=
  if part = "" then .ok (part, tbl)
  else if isVersionSeg part then .ok ("v" ++ toString seed, tbl)
  else if isPlaceholderSeg part then .ok (part, tbl)
  else if (assocGet tbl part).getD "" ≠ "" then .ok ((assocGet tbl part).getD "", tbl)
  else
    match (synCandidates syn part).find? (fun c => !((assocValues tbl).contains c)) with
    | none => .error (.outOfSynonyms part)
    | some c => .ok (dictSetdefault tbl part c)

def permuteSegs (syn : List (String × List String)) (seed : Nat) :
    List String → List (String × String) →
    Except PathsErr (List String × List (String × String))
  | [], tbl => .ok ([], tbl)
  | sg :: rest, tbl =>
      match permutePart syn seed tbl sg with
      | .error e => .error e
      | .ok (sg', tbl1) =>
          match permuteSegs syn seed rest tbl1 with
          | .error e => .error e
          | .ok (rest', tbl2) => .ok (sg' :: rest', tbl2)

def permutePath (syn : List (String × List String)) (seed : Nat)
    (tbl : List (String × String)) (p : String) :
    Except PathsErr (String × List (String × String)) :=
  match permuteSegs syn seed (pathSegs p) tbl with
  | .error e => .error e
  | .ok (segs', tbl') => .ok (joinWithSlash segs', tbl')

def permutePathsList (syn : List (String × List String)) (seed : Nat) :
    List (String × Methods) → List (String × String) →
    Except PathsErr (List (String × Methods) × List (String × String))
  | [], tbl => .ok ([], tbl)
  | (p, ms) :: rest, tbl =>
      match permutePath syn seed tbl p with
      | .error e => .error e
      | .ok (p', tbl1) =>
          match permutePathsList syn seed rest tbl1 with
          | .error e => .error e
          | .ok (rest', tbl2) => .ok ((p', ms) :: rest', tbl2)

/-- Rebuild of the dict comprehension `{permute_path(path): methods for ...}`. -/
def dictOfList {α β : Type} [BEq α] (l : List (α × β)) : List (α × β) :=
  l.foldl (fun acc e => dictInsert acc e.1 e.2) []

/-- Embedding of `permute_paths`: returns the rewritten swagger and the final memo table. -/
def permute_paths (syn : List (String × List String)) (seed : Nat) (sw : Swagger) :
    Except PathsErr (Swagger × List (String × String)) :=
  match permutePathsList syn seed sw.paths [] with
  | .error e => .error e
  | .ok (pairs, tbl) => .ok ({ sw with paths := dictOfList pairs }, tbl)

/-- The per-segment rewrite induced by a (final) memo table. -/
def rewriteSeg (tbl : List (String × String)) (seed : Nat) (s : String) : String :=
  if s = "" then s
  else if isVersionSeg s then "v" ++ toString seed
  else if isPlaceholderSeg s then s
  else (assocGet tbl s).getD s

def rewritePath (tbl : List (String × String)) (seed : Nat) (p : String) : String :=
  joinWithSlash ((pathSegs p).map (rewriteSeg tbl seed))

/-! ## Claim C3: properties of `permute_paths` -/

theorem assocGet_append_some {α β : Type} [BEq α] {l m : List (α × β)} {k : α} {v : β}
    (h : assocGet l k = some v) : assocGet (l ++ m) k = some v := by
  induction l with
  | nil => simp [assocGet] at h
  | cons e rest ih =>
      rw [assocGet] at h
      rw [List.cons_append, assocGet]
      split at h
      · next heq => rw [if_pos heq]; exact h
      · next heq => rw [if_neg heq]; exact ih h

theorem assocGet_append_none {α β : Type} [BEq α] {l : List (α × β)} {k : α}
    (h : assocGet l k = none) (m : List (α × β)) : assocGet (l ++ m) k = assocGet m k := by
  induction l with
  | nil => rfl
  | cons e rest ih =>
      rw [assocGet] at h
      split at h
      · exact absurd h (by simp)
      · next heq =>
          rw [List.cons_append, assocGet, if_neg heq]
          exact ih h

theorem assocGet_none_not_key {α β : Type} [BEq α] [LawfulBEq α] {l : List (α × β)} {k : α}
    (h : assocGet l k = none) : k ∉ l.map Prod.fst := by
  induction l with
  | nil => simp
  | cons e rest ih =>
      rw [assocGet] at h
      split at h
      · exact absurd h (by simp)
      · next heq =>
          simp only [List.map_cons, List.mem_cons]
          rintro (rfl | hk)
          · exact heq (beq_self_eq_true _)
          · exact ih h hk

theorem assocGet_self_append {α β : Type} [BEq α] [LawfulBEq α] {l : List (α × β)} {k : α}
    (h : assocGet l k = none) (v : β) : assocGet (l ++ [(k, v)]) k = some v := by
  rw [assocGet_append_none h, assocGet, if_pos (beq_self_eq_true k)]

theorem not_mem_of_contains_false {α : Type} [BEq α] [LawfulBEq α] {l : List α} {x : α}
    (h : l.contains x = false) : x ∉ l := by
  intro hm
  have ht : l.contains x = true := List.elem_iff.mpr hm
  rw [ht] at h
  cases h

/-- Lookup-preservation order between memo tables. -/
def TblLe (t1 t2 : List (String × String)) : Prop :=
  ∀ k v, assocGet t1 k = some v → assocGet t2 k = some v

theorem TblLe.rfl (t : List (String × String)) : TblLe t t := fun _ _ h => h

theorem TblLe.trans {a b c : List (String × String)} (h1 : TblLe a b) (h2 : TblLe b c) :
    TblLe a c := fun k v h => h2 k v (h1 k v h)

/-- Invariant of the `part_to_name` memo table: keys are distinct, no value is
shared between two keys, and every value is one of its key's candidates. -/
def TblInv (syn : List (String × List String)) (tbl : List (String × String)) : Prop :=
  (tbl.map Prod.fst).Nodup
  ∧ (∀ e1 ∈ tbl, ∀ e2 ∈ tbl, e1.2 = e2.2 → e1.1 = e2.1)
  ∧ (∀ e ∈ tbl, e.2 ∈ synCandidates syn e.1)

theorem permutePart_ok {syn : List (String × List String)} {seed : Nat}
    {tbl tbl' : List (String × String)} {part w : String}
    (h : permutePart syn seed tbl part = .ok (w, tbl')) :
    tbl' = tbl ∨
      (tbl' = tbl ++ [(part, w)] ∧ assocGet tbl part = none
        ∧ ((assocValues tbl).contains w) = false ∧ w ∈ synCandidates syn part) := by
  rw [permutePart] at h
  split at h
  · cases h; exact Or.inl rfl
  · split at h
    · cases h; exact Or.inl rfl
    · split at h
      · cases h; exact Or.inl rfl
      · split at h
        · cases h; exact Or.inl rfl
        · split at h
          · cases h
          · next c hfind =>
              have hmem := List.mem_of_find?_eq_some hfind
              have hpred := List.find?_some hfind
              simp only [Bool.not_eq_true'] at hpred
              cases hget : assocGet tbl part with
              | some w0 =>
                  rw [show dictSetdefault tbl part c = (w0, tbl) by
                    rw [dictSetdefault, hget]] at h
                  cases h; exact Or.inl rfl
              | none =>
                  rw [show dictSetdefault tbl part c = (c, tbl ++ [(part, c)]) by
                    rw [dictSetdefault, hget]] at h
                  cases h
                  exact Or.inr ⟨rfl, rfl, hpred, hmem⟩

theorem permutePart_mono {syn : List (String × List String)} {seed : Nat}
    {tbl tbl' : List (String × String)} {part w : String}
    (h : permutePart syn seed tbl part = .ok (w, tbl')) : TblLe tbl tbl' := by
  rcases permutePart_ok h with rfl | ⟨rfl, _, _, _⟩
  · exact TblLe.rfl _
  · exact fun k v hk => assocGet_append_some hk

theorem permutePart_inv {syn : List (String × List String)} {seed : Nat}
    {tbl tbl' : List (String × String)} {part w : String}
    (h : permutePart syn seed tbl part = .ok (w, tbl'))
    (hinv : TblInv syn tbl) : TblInv syn tbl' := by
  rcases permutePart_ok h with rfl | ⟨rfl, hnone, hfresh, hcand⟩
  · exact hinv
  · obtain ⟨hnodup, hinj, hcands⟩ := hinv
    have hwfresh : w ∉ assocValues tbl := not_mem_of_contains_false hfresh
    refine ⟨?_, ?_, ?_⟩
    · rw [List.map_append]
      simp only [List.map_cons, List.map_nil]
      rw [List.nodup_append]
      refine ⟨hnodup, List.nodup_singleton _, ?_⟩
      intro a ha hb
      simp only [List.mem_singleton] at hb
      subst hb
      exact assocGet_none_not_key hnone ha
    · intro e1 he1 e2 he2 hval
      rcases List.mem_append.mp he1 with he1 | he1 <;>
        rcases List.mem_append.mp he2 with he2 | he2
      · exact hinj e1 he1 e2 he2 hval
      · simp only [List.mem_singleton] at he2
        subst he2
        exfalso
        simp only at hval
        exact hwfresh (by rw [← hval]; exact List.mem_map_of_mem Prod.snd he1)
      · simp only [List.mem_singleton] at he1
        subst he1
        exfalso
        simp only at hval
        exact hwfresh (by rw [hval]; exact List.mem_map_of_mem Prod.snd he2)
      · simp only [List.mem_singleton] at he1 he2
        rw [he1, he2]
    · intro e he
      rcases List.mem_append.mp he with he | he
      · exact hcands e he
      · simp only [List.mem_singleton] at he
        subst he
        exact hcand

theorem permutePart_rewrites {syn : List (String × List String)} {seed : Nat}
    {tbl tbl' tblF : List (String × String)} {part w : String}
    (h : permutePart syn seed tbl part = .ok (w, tbl'))
    (hF : TblLe tbl' tblF) : rewriteSeg tblF seed part = w := by
  rw [permutePart] at h
  rw [rewriteSeg]
  split at h
  · next hc => cases h; rw [if_pos hc]
  · next hc =>
      split at h
      · next hv => cases h; rw [if_neg hc, if_pos hv]
      · next hv =>
          split at h
          · next hp => cases h; rw [if_neg hc, if_neg hv, if_pos hp]
          · next hp =>
              rw [if_neg hc, if_neg hv, if_neg hp]
              split at h
              · next hcur =>
                  cases h
                  cases hget : assocGet tbl part with
                  | none => rw [hget] at hcur; simp at hcur
                  | some v0 =>
                      have hTF := hF part v0 hget
                      rw [hTF]
                      rfl
              · next hcur =>
                  split at h
                  · cases h
                  · next c hfind =>
                      cases hget : assocGet tbl part with
                      | some w0 =>
                          rw [show dictSetdefault tbl part c = (w0, tbl) by
                            rw [dictSetdefault, hget]] at h
                          cases h
                          have hTF := hF part w hget
                          rw [hTF]
                          rfl
                      | none =>
                          rw [show dictSetdefault tbl part c = (c, tbl ++ [(part, c)]) by
                            rw [dictSetdefault, hget]] at h
                          cases h
                          have hTF := hF part w (assocGet_self_append hget w)
                          rw [hTF]
                          rfl

theorem permutePart_err {syn : List (String × List String)} {seed : Nat}
    {tbl : List (String × String)} {part : String} {e : PathsErr}
    (h : permutePart syn seed tbl part = .error e) :
    e = .outOfSynonyms part ∧ ∀ c ∈ synCandidates syn part, c ∈ assocValues tbl := by
  rw [permutePart] at h
  split at h
  · cases h
  · split at h
    · cases h
    · split at h
      · cases h
      · split at h
        · cases h
        · split at h
          · next hfind =>
              cases h
              refine ⟨rfl, ?_⟩
              intro c hc
              have := List.find?_eq_none.mp hfind c hc
              simp only [Bool.not_eq_true', Bool.not_eq_false] at this
              exact List.elem_iff.mp this
          · cases h

theorem permuteSegs_ok {syn : List (String × List String)} {seed : Nat} :
    ∀ {segs : List String} {tbl segs' tbl' : _},
    permuteSegs syn seed segs tbl = .ok (segs', tbl') →
    TblLe tbl tbl' ∧ (TblInv syn tbl → TblInv syn tbl')
      ∧ ∀ tblF, TblLe tbl' tblF → segs' = segs.map (rewriteSeg tblF seed) := by
  intro segs
  induction segs with
  | nil =>
      intro tbl segs' tbl' h
      rw [permuteSegs] at h
      cases h
      exact ⟨TblLe.rfl _, id, fun _ _ => rfl⟩
  | cons sg rest ih =>
      intro tbl segs' tbl' h
      rw [permuteSegs] at h
      split at h
      · cases h
      · next sg' tbl1 hp =>
          split at h
          · cases h
          · next rest' tbl2 hr =>
              cases h
              obtain ⟨hle2, hinv2, hmap2⟩ := ih hr
              refine ⟨TblLe.trans (permutePart_mono hp) hle2, ?_, ?_⟩
              · exact fun hi => hinv2 (permutePart_inv hp hi)
              · intro tblF hF
                have hseg := permutePart_rewrites hp (TblLe.trans hle2 hF)
                rw [List.map_cons, hseg, ← hmap2 tblF hF]

theorem permuteSegs_err {syn : List (String × List String)} {seed : Nat} :
    ∀ {segs : List String} {tbl : _} {e : PathsErr},
    permuteSegs syn seed segs tbl = .error e → TblInv syn tbl →
    ∃ t tblm, e = .outOfSynonyms t ∧ TblInv syn tblm
      ∧ ∀ c ∈ synCandidates syn t, c ∈ assocValues tblm := by
  intro segs
  induction segs with
  | nil => intro tbl e h _; rw [permuteSegs] at h; cases h
  | cons sg rest ih =>
      intro tbl e h hinv
      rw [permuteSegs] at h
      split at h
      · next hp =>
          cases h
          obtain ⟨he, hused⟩ := permutePart_err hp
          exact ⟨sg, tbl, he, hinv, hused⟩
      · next sg' tbl1 hp =>
          split at h
          · next hr =>
              cases h
              exact ih hr (permutePart_inv hp hinv)
          · cases h

theorem permutePath_ok {syn : List (String × List String)} {seed : Nat}
    {tbl tbl' : List (String × String)} {p p' : String}
    (h : permutePath syn seed tbl p = .ok (p', tbl')) :
    TblLe tbl tbl' ∧ (TblInv syn tbl → TblInv syn tbl')
      ∧ ∀ tblF, TblLe tbl' tblF → p' = rewritePath tblF seed p := by
  rw [permutePath] at h
  split at h
  · cases h
  · next segs' tblx hs =>
      cases h
      obtain ⟨hle, hinv, hmap⟩ := permuteSegs_ok hs
      refine ⟨hle, hinv, ?_⟩
      intro tblF hF
      rw [rewritePath, ← hmap tblF hF]

theorem permutePath_err {syn : List (String × List String)} {seed : Nat}
    {tbl : List (String × String)} {p : String} {e : PathsErr}
    (h : permutePath syn seed tbl p = .error e) (hinv : TblInv syn tbl) :
    ∃ t tblm, e = .outOfSynonyms t ∧ TblInv syn tblm
      ∧ ∀ c ∈ synCandidates syn t, c ∈ assocValues tblm := by
  rw [permutePath] at h
  split at h
  · next he =>
      cases h
      exact permuteSegs_err he hinv
  · cases h

theorem permutePathsList_ok {syn : List (String × List String)} {seed : Nat} :
    ∀ {ps : List (String × Methods)} {tbl pairs tbl' : _},
    permutePathsList syn seed ps tbl = .ok (pairs, tbl') →
    TblLe tbl tbl' ∧ (TblInv syn tbl → TblInv syn tbl')
      ∧ ∀ tblF, TblLe tbl' tblF →
          pairs = ps.map (fun e => (rewritePath tblF seed e.1, e.2)) := by
  intro ps
  induction ps with
  | nil =>
      intro tbl pairs tbl' h
      rw [permutePathsList] at h
      cases h
      exact ⟨TblLe.rfl _, id, fun _ _ => rfl⟩
  | cons e rest ih =>
      intro tbl pairs tbl' h
      rw [permutePathsList] at h
      split at h
      · cases h
      · next p' tbl1 hp =>
          split at h
          · cases h
          · next rest' tbl2 hr =>
              cases h
              obtain ⟨hle2, hinv2, hmap2⟩ := ih hr
              refine ⟨TblLe.trans (permutePath_ok hp).1 hle2, ?_, ?_⟩
              · exact fun hi => hinv2 ((permutePath_ok hp).2.1 hi)
              · intro tblF hF
                have hpath := (permutePath_ok hp).2.2 tblF (TblLe.trans hle2 hF)
                rw [List.map_cons, ← hpath, ← hmap2 tblF hF]

theorem permutePathsList_err {syn : List (String × List String)} {seed : Nat} :
    ∀ {ps : List (String × Methods)} {tbl : _} {e : PathsErr},
    permutePathsList syn seed ps tbl = .error e → TblInv syn tbl →
    ∃ t tblm, e = .outOfSynonyms t ∧ TblInv syn tblm
      ∧ ∀ c ∈ synCandidates syn t, c ∈ assocValues tblm := by
  intro ps
  induction ps with
  | nil => intro tbl e h _; rw [permutePathsList] at h; cases h
  | cons pe rest ih =>
      intro tbl e h hinv
      rw [permutePathsList] at h
      split at h
      · next hp =>
          cases h
          exact permutePath_err hp hinv
      · next p' tbl1 hp =>
          split at h
          · next hr =>
              cases h
              exact ih hr ((permutePath_ok hp).2.1 hinv)
          · cases h

theorem tblInv_nil (syn : List (String × List String)) : TblInv syn [] := by
  refine ⟨List.nodup_nil, ?_, ?_⟩ <;> intro e he <;> cases he

/-- C3: for every document and every shuffled-synonym draw, a successful
`permute_paths` run is fully described by one final memo table: every output
path is the input path with each canonical token replaced by its memoized
image (so a token is rewritten identically everywhere in the document), no two
distinct tokens share an image, each image is one of the token's candidates;
and a failing run fails precisely with `OutOfSynonyms t` for a token `t` all
of whose candidate synonyms were already used as images in the memo table. -/
theorem c3_permute_paths (syn : List (String × List String)) (seed : Nat) (sw : Swagger) :
    (∀ sw' tbl, permute_paths syn seed sw = .ok (sw', tbl) →
        sw'.paths = dictOfList (sw.paths.map (fun e => (rewritePath tbl seed e.1, e.2)))
        ∧ (∀ e1 ∈ tbl, ∀ e2 ∈ tbl, e1.2 = e2.2 → e1.1 = e2.1)
        ∧ (∀ e ∈ tbl, e.2 ∈ synCandidates syn e.1))
    ∧ (∀ er, permute_paths syn seed sw = .error er →
        ∃ (t : String) (tblm : List (String × String)), er = .outOfSynonyms t
          ∧ (∀ c ∈ synCandidates syn t, c ∈ assocValues tblm)
          ∧ (∀ e1 ∈ tblm, ∀ e2 ∈ tblm, e1.2 = e2.2 → e1.1 = e2.1)) := by
  constructor
  · intro sw' tbl h
    rw [permute_paths] at h
    split at h
    · cases h
    · next pairs tblx hl =>
        cases h
        obtain ⟨hle, hinv, hmap⟩ := permutePathsList_ok hl
        have hfin := hinv (tblInv_nil syn)
        refine ⟨?_, hfin.2.1, hfin.2.2⟩
        have := hmap tbl (TblLe.rfl tbl)
        simp only [this]
  · intro er h
    rw [permute_paths] at h
    split at h
    · next he =>
        cases h
        obtain ⟨t, tblm, hert, hinvm, hused⟩ := permutePathsList_err he (tblInv_nil syn)
        exact ⟨t, tblm, hert, hused, hinvm.2.1⟩
    · cases h

/-! ## `permute_locations` (permutations.py lines 111-161, the variant wired in
`views.get_mixer`)

`rnd.choice((True, False))` draws become the oracle stream `coins` (consumed
in draw order), `humps.pascalize` / `humps.decamelize` become the oracle
functions `pasc` / `decam`.  The memo `params_locations` keyed by the
parameter's original name enforces persistence. -/

structure LocOracle where
  coins : Nat → Bool
  pasc : String → String
  decam : String → String

/-- Python `name.replace('-', '')`. -/
def stripDashes (s : String) : String := String.mk (s.data.filter (fun c => c ≠ '-'))

/-- Python dict flip `{'query': 'header', 'header': 'query'}.get(in_, in_)`. -/
def flipLoc (s : String) : String :=
  if s = "query" then "header" else if s = "header" then "query" else s

structure LocState where
  locs : List (String × String)
  k : Nat
deriving Repr

/-- Rename on location change: header names are pascalized, query names are
decamelized after dropping dashes; other locations keep the name. -/
def renameParam (o : LocOracle) (in_ : String) (p : PSpec) : PSpec :=
  if in_ = "header" then { in_ := in_, name := o.pasc p.name }
  else if in_ = "query" then { in_ := in_, name := o.decam (stripDashes p.name) }
  else { in_ := in_, name := p.name }

/-- One parameter of a `get` operation: look up the memoized location by the
original name; on a miss, flip a coin and memoize the outcome. -/
def locParam (o : LocOracle) (st : LocState) (p : PSpec) : LocState × PSpec :=
  if (assocGet st.locs p.name).getD "" ≠ "" then
    (st, renameParam o ((assocGet st.locs p.name).getD "") p)
  else
    let newIn := if o.coins st.k then flipLoc p.in_ else p.in_
    ({ locs := dictInsert st.locs p.name newIn, k := st.k + 1 }, renameParam o newIn p)

def locParams (o : LocOracle) : List PSpec → LocState → LocState × List PSpec
  | [], st => (st, [])
  | p :: rest, st =>
      let r1 := locParam o st p
      let r2 := locParams o rest r1.1
      (r2.1, r1.2 :: r2.2)

/-- Only `get` operations are visited; absent parameter lists stay absent. -/
def locOp (o : LocOracle) (m : String) (op : Operation) (st : LocState) :
    LocState × Operation :=
  if m = "get" then
    match op with
    | none => (st, none)
    | some ps =>
        let r := locParams o ps st
        (r.1, some r.2)
  else (st, op)

def locMethods (o : LocOracle) : Methods → LocState → LocState × Methods
  | [], st => (st, [])
  | me :: rest, st =>
      let r1 := locOp o me.1 me.2 st
      let r2 := locMethods o rest r1.1
      (r2.1, (me.1, r1.2) :: r2.2)

def locPaths (o : LocOracle) : List (String × Methods) → LocState → LocState × List (String × Methods)
  | [], st => (st, [])
  | pe :: rest, st =>
      let r1 := locMethods o pe.2 st
      let r2 := locPaths o rest r1.1
      (r2.1, (pe.1, r1.2) :: r2.2)

def permute_locations (o : LocOracle) (sw : Swagger) : Swagger :=
  { sw with paths := (locPaths o sw.paths { locs := [], k := 0 }).2 }

/-! ## `permute_result` (permutations.py lines 185-258) -/

def permute_result (sw : Swagger) : Swagger :=
  { sw with definitions := sw.definitions.map (fun e =>
      (e.1, JVal.obj [("type", JVal.str "object"),
                      ("properties", JVal.obj [("result", e.2)])])) }

/-! ## `ApiMixer` (mixer.py lines 334-423) -/

/-- `as_parameters`: walk paths, methods, parameters in document order; an
operation without a `parameters` key contributes one wildcard dummy. -/
def as_parameters (sw : Swagger) : List Parameter :=
  sw.paths.flatMap (fun pe => pe.2.flatMap (fun me =>
    match me.2 with
    | none => [⟨pe.1, some me.1, none, none⟩]
    | some ps => ps.map (fun p => ⟨pe.1, some me.1, some p.in_, some p.name⟩)))

structure ApiMixer where
  swagger : Swagger
  seed : Nat
  permuted_swagger : Swagger
  original_parameters : List Parameter
  permuted_parameters : List Parameter
deriving Repr, Inhabited

/-- `ApiMixer.__post_init__` with the pipeline wired in `views.get_mixer`:
`permute_paths`, `permute_locations`, `permute_result` (and `permute_methods`
commented out), then the two parameter walks. -/
def mkApiMixer (syn : List (String × List String)) (o : LocOracle) (seed : Nat)
    (sw : Swagger) : Except PathsErr ApiMixer :=
  match permute_paths syn seed sw with
  | .error e => .error e
  | .ok (sw1, _) =>
      let sw2 := permute_result (permute_locations o sw1)
      .ok { swagger := sw, seed := seed, permuted_swagger := sw2,
            original_parameters := as_parameters sw,
            permuted_parameters := as_parameters sw2 }

inductive RevErr where
  | valueError
  | indexError
deriving Repr, DecidableEq

/-- `ApiMixer.reverse`: `list.index` (first index whose element `__eq__`s the
argument, else `ValueError`), then subscripts into both parameter lists
(an out-of-range subscript being Python's `IndexError`). -/
def ApiMixer.reverse (m : ApiMixer) (p : Parameter) : Except RevErr (Parameter × Parameter) :=
  match m.permuted_parameters.findIdx? (fun q => Parameter.eq q p) with
  | none => .error .valueError
  | some i =>
      match m.permuted_parameters[i]?, m.original_parameters[i]? with
      | some pd, some po => .ok (pd, po)
      | _, _ => .error .indexError

/-! ## Claim C1: lengths and positional reversal -/

def opLen : Operation → Nat
  | none => 1
  | some ps => ps.length

def methodsLen (ms : Methods) : Nat := (ms.map (fun me => opLen me.2)).sum

def swParamsLen (paths : List (String × Methods)) : Nat :=
  (paths.map (fun pe => methodsLen pe.2)).sum

theorem as_parameters_length (sw : Swagger) :
    (as_parameters sw).length = swParamsLen sw.paths := by
  rw [as_parameters, swParamsLen, List.length_flatMap]
  congr 1
  apply List.map_congr_left
  intro pe _
  rw [Function.comp_apply, List.length_flatMap, methodsLen]
  congr 1
  apply List.map_congr_left
  intro me _
  rw [Function.comp_apply]
  cases me.2 with
  | none => rfl
  | some ps => simp [opLen]

theorem locParams_length (o : LocOracle) :
    ∀ (ps : List PSpec) (st : LocState), (locParams o ps st).2.length = ps.length := by
  intro ps
  induction ps with
  | nil => intro st; rfl
  | cons p rest ih => intro st; simp [locParams, ih]

theorem locOp_len (o : LocOracle) (m : String) (op : Operation) (st : LocState) :
    opLen (locOp o m op st).2 = opLen op := by
  rw [locOp.eq_def]
  split
  · cases op with
    | none => rfl
    | some ps => simp [opLen, locParams_length]
  · rfl

theorem locMethods_len (o : LocOracle) :
    ∀ (ms : Methods) (st : LocState), methodsLen (locMethods o ms st).2 = methodsLen ms := by
  intro ms
  induction ms with
  | nil => intro st; rfl
  | cons me rest ih =>
      intro st
      simp only [locMethods, methodsLen, List.map_cons, List.sum_cons]
      rw [locOp_len]
      have := ih (locOp o me.1 me.2 st).1
      simp only [methodsLen] at this
      rw [this]

theorem locPaths_len (o : LocOracle) :
    ∀ (ps : List (String × Methods)) (st : LocState),
      swParamsLen (locPaths o ps st).2 = swParamsLen ps := by
  intro ps
  induction ps with
  | nil => intro st; rfl
  | cons pe rest ih =>
      intro st
      simp only [locPaths, swParamsLen, List.map_cons, List.sum_cons]
      rw [locMethods_len]
      have := ih (locMethods o pe.2 st).1
      simp only [swParamsLen] at this
      rw [this]

theorem locPaths_length (o : LocOracle) :
    ∀ (ps : List (String × Methods)) (st : LocState),
      (locPaths o ps st).2.length = ps.length := by
  intro ps
  induction ps with
  | nil => intro st; rfl
  | cons pe rest ih => intro st; simp [locPaths, ih]

theorem dictInsert_length_le {α β : Type} [BEq α] (l : List (α × β)) (k : α) (v : β) :
    (dictInsert l k v).length ≤ l.length + 1 := by
  rw [dictInsert]
  split
  · simp
  · simp

theorem dictInsert_not_has {α β : Type} [BEq α] {l : List (α × β)} {k : α} (v : β)
    (h : assocHas l k = false) : dictInsert l k v = l ++ [(k, v)] := by
  rw [dictInsert, h]
  simp

theorem dictInsert_has {α β : Type} [BEq α] {l : List (α × β)} {k : α} (v : β)
    (h : assocHas l k = true) : (dictInsert l k v).length = l.length := by
  rw [dictInsert, h]
  simp

theorem foldIns_length_le {α β : Type} [BEq α] :
    ∀ (l acc : List (α × β)),
      (l.foldl (fun a e => dictInsert a e.1 e.2) acc).length ≤ acc.length + l.length := by
  intro l
  induction l with
  | nil => intro acc; simp
  | cons e rest ih =>
      intro acc
      rw [List.foldl_cons]
      calc (rest.foldl (fun a e => dictInsert a e.1 e.2) (dictInsert acc e.1 e.2)).length
          ≤ (dictInsert acc e.1 e.2).length + rest.length := ih _
        _ ≤ (acc.length + 1) + rest.length :=
            Nat.add_le_add_right (dictInsert_length_le acc e.1 e.2) _
        _ = acc.length + (e :: rest).length := by simp [List.length_cons]; omega

theorem foldIns_length_eq {α β : Type} [BEq α] :
    ∀ (l acc : List (α × β)),
      (l.foldl (fun a e => dictInsert a e.1 e.2) acc).length = acc.length + l.length →
      l.foldl (fun a e => dictInsert a e.1 e.2) acc = acc ++ l := by
  intro l
  induction l with
  | nil => intro acc _; simp
  | cons e rest ih =>
      intro acc hlen
      obtain ⟨k, v⟩ := e
      rw [List.foldl_cons] at hlen ⊢
      cases hh : assocHas acc k with
      | true =>
          exfalso
          have hle := foldIns_length_le rest (dictInsert acc k v)
          rw [dictInsert_has v hh] at hle
          rw [hlen] at hle
          simp [List.length_cons] at hle
      | false =>
          rw [dictInsert_not_has v hh] at hlen ⊢
          have h2 : (rest.foldl (fun a e => dictInsert a e.1 e.2) (acc ++ [(k, v)])).length
              = (acc ++ [(k, v)]).length + rest.length := by
            rw [hlen]
            simp [List.length_cons, List.length_append]
            omega
          rw [ih (acc ++ [(k, v)]) h2, List.append_assoc]
          rfl

theorem dictOfList_length_eq {α β : Type} [BEq α] {l : List (α × β)}
    (h : (dictOfList l).length = l.length) : dictOfList l = l := by
  have := foldIns_length_eq l [] (by simpa [dictOfList] using h)
  simpa [dictOfList] using this

theorem swParamsLen_map_fst {f : String → String} :
    ∀ ps : List (String × Methods),
      swParamsLen (ps.map (fun e => (f e.1, e.2))) = swParamsLen ps := by
  intro ps
  induction ps with
  | nil => rfl
  | cons pe rest ih =>
      simp only [List.map_cons, swParamsLen, List.sum_cons] at ih ⊢
      rw [ih]

theorem optFieldEq_refl (a : Option String) : optFieldEq a a = true := by
  cases a with
  | none => rfl
  | some x => simp [optFieldEq]

theorem parameter_eq_refl (p : Parameter) : Parameter.eq p p = true := by
  simp [Parameter.eq, pathFieldEq, optFieldEq_refl]

theorem findIdx?_eq_some_of_first {α : Type} {pred : α → Bool} :
    ∀ {l : List α} {i : Nat} {a : α}, l[i]? = some a → pred a = true →
      (∀ j b, j < i → l[j]? = some b → pred b = false) →
      l.findIdx? pred = some i := by
  intro l
  induction l with
  | nil => intro i a ha _ _; simp at ha
  | cons x xs ih =>
      intro i a ha hp hj
      cases i with
      | zero =>
          simp only [List.getElem?_cons_zero, Option.some.injEq] at ha
          have hgoal : (x :: xs).findIdx? pred = if pred x then some 0
              else (xs.findIdx? pred).map (· + 1) := by
            simp [List.findIdx?_cons]
          rw [hgoal, ha, hp]
          rfl
      | succ i =>
          have hx : pred x = false := hj 0 x (Nat.succ_pos _) (by simp)
          have hgoal : (x :: xs).findIdx? pred = if pred x then some 0
              else (xs.findIdx? pred).map (· + 1) := by
            simp [List.findIdx?_cons]
          rw [hgoal, hx]
          simp only [Bool.false_eq_true, if_false]
          have hrec := ih (i := i) (a := a) (by simpa using ha) hp
            (fun j b hji hjb => hj (j + 1) b (by omega) (by simpa using hjb))
          rw [hrec]
          rfl

/-- C1 (amended): provided no two canonical paths collapse to the same
permuted path (the permuted paths dict keeps as many entries as the canonical
one), the ordered canonical and permuted parameter lists have the same length;
and `reverse(permuted_parameters[i])` returns
`(permuted_parameters[i], original_parameters[i])` whenever `i` is the FIRST
index whose permuted parameter `__eq__`-matches `permuted_parameters[i]`
(`list.index` takes the first match, so later fuzzy-equal entries resolve to
the earliest one). -/
theorem c1_mixer_bijection (syn : List (String × List String)) (o : LocOracle)
    (seed : Nat) (sw : Swagger) (m : ApiMixer)
    (hm : mkApiMixer syn o seed sw = .ok m)
    (hpaths : m.permuted_swagger.paths.length = sw.paths.length) :
    m.permuted_parameters.length = m.original_parameters.length
    ∧ ∀ (i : Nat) (pi : Parameter), m.permuted_parameters[i]? = some pi →
        (∀ (j : Nat) (pj : Parameter), j < i → m.permuted_parameters[j]? = some pj →
          Parameter.eq pj pi = false) →
        ∃ po, m.original_parameters[i]? = some po ∧ m.reverse pi = .ok (pi, po) := by
  rw [mkApiMixer] at hm
  split at hm
  · cases hm
  · next sw1 tbl hpp =>
      cases hm
      rw [permute_paths] at hpp
      split at hpp
      · cases hpp
      · next pairs tblx hpl =>
          cases hpp
          obtain ⟨hle, hinv, hmap⟩ := permutePathsList_ok hpl
          have hpairs : pairs = sw.paths.map
              (fun e => (rewritePath tbl seed e.1, e.2)) := hmap tbl (TblLe.rfl _)
          have hlen : (as_parameters (permute_result (permute_locations o
              { sw with paths := dictOfList pairs }))).length
              = (as_parameters sw).length := by
            rw [as_parameters_length, as_parameters_length]
            have h1 : (permute_result (permute_locations o
                { sw with paths := dictOfList pairs })).paths
                = (permute_locations o { sw with paths := dictOfList pairs }).paths := rfl
            rw [h1]
            rw [permute_locations]
            simp only
            rw [locPaths_len]
            -- now need: swParamsLen (dictOfList pairs) = swParamsLen sw.paths
            have hplen : (dictOfList pairs).length = pairs.length := by
              have h2 := hpaths
              simp only [mkApiMixer] at h2
              rw [show (permute_result (permute_locations o
                  { sw with paths := dictOfList pairs })).paths
                  = (locPaths o (dictOfList pairs) { locs := [], k := 0 }).2 from rfl] at h2
              rw [locPaths_length] at h2
              rw [h2, hpairs, List.length_map]
            have hfix := dictOfList_length_eq (by rw [hplen])
            rw [hfix, hpairs, swParamsLen_map_fst]
          constructor
          · exact hlen
          · intro i pi hpi hfirst
            have hidx : (as_parameters (permute_result (permute_locations o
                { sw with paths := dictOfList pairs }))).findIdx?
                  (fun q => Parameter.eq q pi) = some i :=
              findIdx?_eq_some_of_first hpi (parameter_eq_refl pi) hfirst
            have hilt : i < (as_parameters (permute_result (permute_locations o
                { sw with paths := dictOfList pairs }))).length := by
              rcases List.getElem?_eq_some_iff.mp hpi with ⟨hh, _⟩
              exact hh
            have hiorig : i < (as_parameters sw).length := by rw [← hlen]; exact hilt
            refine ⟨(as_parameters sw)[i], List.getElem?_eq_getElem hiorig, ?_⟩
            rw [ApiMixer.reverse]
            simp only [hidx, hpi, List.getElem?_eq_getElem hiorig]

def synC1 : List (String × List String) := []

def oracleC1 : LocOracle :=
  { coins := fun _ => true, pasc := fun s => s, decam := fun s => s }

def swC1 : Swagger :=
  { paths := [("/v1/users", [("get", none)]), ("/v2/users", [("get", none)])],
    definitions := [] }

def mixC1 : ApiMixer := (mkApiMixer synC1 oracleC1 7 swC1).toOption.getD default

/-- C1 counterexample: on a document containing both `/v1/users` and
`/v2/users` (distinct canonical paths), both collapse to `/v7/users` in the
permuted paths dict, so construction succeeds with 2 canonical parameters but
only 1 permuted parameter: the claimed length equality fails. -/
theorem c1_counterexample :
    mkApiMixer synC1 oracleC1 7 swC1 = .ok mixC1
    ∧ mixC1.original_parameters.length = 2
    ∧ mixC1.permuted_parameters.length = 1
    ∧ (2 : Nat) ≠ 1 := by
  refine ⟨rfl, rfl, rfl, by decide⟩

def swC1W : Swagger :=
  { paths := [("/v1/users", [("get",
      some [⟨"query", "page"⟩, ⟨"header", "App-Token"⟩])])],
    definitions := [] }

def mixC1W : ApiMixer := (mkApiMixer synC1 oracleC1 3 swC1W).toOption.getD default

theorem c1_mixer_bijection_witness :
    mixC1W.permuted_parameters.length = mixC1W.original_parameters.length
    ∧ mixC1W.reverse ⟨"/v3/users", some "get", some "header", some "page"⟩
        = .ok (⟨"/v3/users", some "get", some "header", some "page"⟩,
               ⟨"/v1/users", some "get", some "query", some "page"⟩) := by
  have h := c1_mixer_bijection synC1 oracleC1 3 swC1W mixC1W rfl rfl
  refine ⟨h.1, ?_⟩
  obtain ⟨po, hpo, hrev⟩ := h.2 0 ⟨"/v3/users", some "get", some "header", some "page"⟩
    (by rfl) (fun j pj hj _ => absurd hj (Nat.not_lt_zero j))
  have hpo' : po = ⟨"/v1/users", some "get", some "query", some "page"⟩ := by
    have : mixC1W.original_parameters[0]?
        = some ⟨"/v1/users", some "get", some "query", some "page"⟩ := rfl
    rw [this] at hpo
    exact (Option.some.inj hpo).symm
  rw [hpo'] at hrev
  exact hrev

def synC3 : List (String × List String) := [("users", ["people"])]

def swC3 : Swagger := { paths := [("/v1/users", [("get", none)])], definitions := [] }

theorem c3_permute_paths_witness :
    ({ paths := [("/v3/people", [("get", (none : Operation))])], definitions := [] }
      : Swagger).paths
      = dictOfList (swC3.paths.map (fun e => (rewritePath [("users", "people")] 3 e.1, e.2))) :=
  ((c3_permute_paths synC3 3 swC3).1
    { paths := [("/v3/people", [("get", none)])], definitions := [] }
    [("users", "people")] rfl).1

/-! ## Claim C4: persistence of parameter locations under `permute_locations` -/

/-- Parameters of one method entry that `permute_locations` visits. -/
def getMeParams (me : String × Operation) : List PSpec :=
  if me.1 = "get" then me.2.getD [] else []

/-- All parameters of `get` operations in traversal order. -/
def getOpParams (paths : List (String × Methods)) : List PSpec :=
  paths.flatMap (fun pe => pe.2.flatMap getMeParams)

/-- All parameters of all operations in traversal order. -/
def allOpParams (paths : List (String × Methods)) : List PSpec :=
  paths.flatMap (fun pe => pe.2.flatMap (fun me => me.2.getD []))

theorem assocGet_mem {α β : Type} [BEq α] [LawfulBEq α] :
    ∀ {l : List (α × β)} {k : α} {v : β}, assocGet l k = some v → (k, v) ∈ l := by
  intro l
  induction l with
  | nil => intro k v h; simp [assocGet] at h
  | cons e rest ih =>
      intro k v h
      rw [assocGet] at h
      split at h
      · next heq =>
          cases h
          have : e.1 = k := eq_of_beq heq
          rcases e with ⟨k', v'⟩
          simp only at this
          rw [this]
          exact List.mem_cons_self _ _
      · exact List.mem_cons_of_mem _ (ih h)

theorem renameParam_in (o : LocOracle) (v : String) (p : PSpec) :
    (renameParam o v p).in_ = v := by
  rw [renameParam]
  split
  · rfl
  · split
    · rfl
    · rfl

theorem flipLoc_ne_empty {s : String} (h : s ≠ "") : flipLoc s ≠ "" := by
  rw [flipLoc]
  split
  · decide
  · split
    · decide
    · exact h

theorem locParam_spec (o : LocOracle) (st : LocState) (p : PSpec)
    (hinv : ∀ e ∈ st.locs, e.2 ≠ "") (hp : p.in_ ≠ "") :
    (∀ e ∈ (locParam o st p).1.locs, e.2 ≠ "")
    ∧ (∀ k v, assocGet st.locs k = some v → assocGet (locParam o st p).1.locs k = some v)
    ∧ assocGet (locParam o st p).1.locs p.name = some ((locParam o st p).2).in_ := by
  by_cases hstored : (assocGet st.locs p.name).getD "" ≠ ""
  · simp only [locParam, if_pos hstored]
    refine ⟨hinv, fun k v h => h, ?_⟩
    cases hget : assocGet st.locs p.name with
    | none => rw [hget] at hstored; simp at hstored
    | some v =>
        rw [renameParam_in]
        simp
  · simp only [locParam, if_neg hstored]
    have hnone : assocGet st.locs p.name = none := by
      cases hget : assocGet st.locs p.name with
      | none => rfl
      | some v =>
          exfalso
          rw [hget] at hstored
          simp only [Option.getD_some, ne_eq, Decidable.not_not] at hstored
          exact hinv (p.name, v) (assocGet_mem hget) hstored
    have hhas : assocHas st.locs p.name = false := by
      rw [assocHas, hnone]
      rfl
    have hins : dictInsert st.locs p.name (if o.coins st.k then flipLoc p.in_ else p.in_)
        = st.locs ++ [(p.name, if o.coins st.k then flipLoc p.in_ else p.in_)] :=
      dictInsert_not_has _ hhas
    have hnew : (if o.coins st.k then flipLoc p.in_ else p.in_) ≠ "" := by
      split
      · exact flipLoc_ne_empty hp
      · exact hp
    simp only [hins]
    refine ⟨?_, ?_, ?_⟩
    · intro e he
      rcases List.mem_append.mp he with he | he
      · exact hinv e he
      · simp only [List.mem_singleton] at he
        rw [he]
        exact hnew
    · intro k v h
      exact assocGet_append_some h
    · rw [renameParam_in]
      exact assocGet_self_append hnone _

theorem locParams_spec (o : LocOracle) :
    ∀ (ps : List PSpec) (st : LocState),
    (∀ e ∈ st.locs, e.2 ≠ "") → (∀ p ∈ ps, p.in_ ≠ "") →
    (∀ e ∈ (locParams o ps st).1.locs, e.2 ≠ "")
    ∧ (∀ k v, assocGet st.locs k = some v → assocGet (locParams o ps st).1.locs k = some v)
    ∧ ∀ pr ∈ ps.zip (locParams o ps st).2,
        assocGet (locParams o ps st).1.locs pr.1.name = some pr.2.in_ := by
  intro ps
  induction ps with
  | nil =>
      intro st hinv _
      exact ⟨hinv, fun k v h => h, by intro pr hpr; simp [List.zip] at hpr⟩
  | cons p rest ih =>
      intro st hinv hps
      have hp : p.in_ ≠ "" := hps p (List.mem_cons_self _ _)
      obtain ⟨hinv1, hmono1, hget1⟩ := locParam_spec o st p hinv hp
      obtain ⟨hinv2, hmono2, hzip2⟩ := ih (locParam o st p).1 hinv1
        (fun q hq => hps q (List.mem_cons_of_mem _ hq))
      simp only [locParams]
      refine ⟨hinv2, fun k v h => hmono2 k v (hmono1 k v h), ?_⟩
      intro pr hpr
      rw [List.zip_cons_cons] at hpr
      rcases List.mem_cons.mp hpr with rfl | hpr
      · exact hmono2 _ _ hget1
      · exact hzip2 pr hpr

theorem locOp_spec (o : LocOracle) (mname : String) (op : Operation) (st : LocState)
    (hinv : ∀ e ∈ st.locs, e.2 ≠ "")
    (hps : ∀ p ∈ getMeParams (mname, op), p.in_ ≠ "") :
    (∀ e ∈ (locOp o mname op st).1.locs, e.2 ≠ "")
    ∧ (∀ k v, assocGet st.locs k = some v → assocGet (locOp o mname op st).1.locs k = some v)
    ∧ (getMeParams (mname, (locOp o mname op st).2)).length
        = (getMeParams (mname, op)).length
    ∧ ∀ pr ∈ (getMeParams (mname, op)).zip (getMeParams (mname, (locOp o mname op st).2)),
        assocGet (locOp o mname op st).1.locs pr.1.name = some pr.2.in_ := by
  by_cases hm : mname = "get"
  · subst hm
    cases op with
    | none =>
        have hop : locOp o "get" none st = (st, none) := by rw [locOp.eq_def]; simp
        rw [hop]
        refine ⟨hinv, fun k v h => h, rfl, ?_⟩
        intro pr hpr
        simp [getMeParams] at hpr
    | some ps =>
        have hop : locOp o "get" (some ps) st
            = ((locParams o ps st).1, some (locParams o ps st).2) := by
          rw [locOp.eq_def]; simp
        rw [hop]
        obtain ⟨hinv2, hmono2, hzip2⟩ := locParams_spec o ps st hinv
          (by simpa [getMeParams] using hps)
        refine ⟨hinv2, hmono2, ?_, ?_⟩
        · simp [getMeParams, locParams_length]
        · intro pr hpr
          apply hzip2
          simpa [getMeParams] using hpr
  · have hop : locOp o mname op st = (st, op) := by rw [locOp.eq_def, if_neg hm]
    rw [hop]
    refine ⟨hinv, fun k v h => h, rfl, ?_⟩
    intro pr hpr
    simp [getMeParams, hm] at hpr

theorem locMethods_spec (o : LocOracle) :
    ∀ (ms : Methods) (st : LocState),
    (∀ e ∈ st.locs, e.2 ≠ "") →
    (∀ p ∈ ms.flatMap getMeParams, p.in_ ≠ "") →
    (∀ e ∈ (locMethods o ms st).1.locs, e.2 ≠ "")
    ∧ (∀ k v, assocGet st.locs k = some v →
        assocGet (locMethods o ms st).1.locs k = some v)
    ∧ ((locMethods o ms st).2.flatMap getMeParams).length = (ms.flatMap getMeParams).length
    ∧ ∀ pr ∈ (ms.flatMap getMeParams).zip ((locMethods o ms st).2.flatMap getMeParams),
        assocGet (locMethods o ms st).1.locs pr.1.name = some pr.2.in_ := by
  intro ms
  induction ms with
  | nil =>
      intro st hinv _
      exact ⟨hinv, fun k v h => h, rfl, by intro pr hpr; simp at hpr⟩
  | cons me rest ih =>
      intro st hinv hps
      have hps1 : ∀ p ∈ getMeParams (me.1, me.2), p.in_ ≠ "" := by
        intro p hp
        exact hps p (by simp only [List.flatMap_cons, List.mem_append]; exact Or.inl hp)
      obtain ⟨hinv1, hmono1, hlen1, hzip1⟩ := locOp_spec o me.1 me.2 st hinv hps1
      obtain ⟨hinv2, hmono2, hlen2, hzip2⟩ := ih (locOp o me.1 me.2 st).1 hinv1
        (by
          intro p hp
          exact hps p (by simp only [List.flatMap_cons, List.mem_append]; exact Or.inr hp))
      simp only [locMethods, List.flatMap_cons]
      refine ⟨hinv2, fun k v h => hmono2 k v (hmono1 k v h), ?_, ?_⟩
      · rw [List.length_append, List.length_append, hlen1, hlen2]
      · intro pr hpr
        rw [List.zip_append hlen1.symm] at hpr
        rcases List.mem_append.mp hpr with hpr | hpr
        · exact hmono2 _ _ (hzip1 pr hpr)
        · exact hzip2 pr hpr

theorem locPaths_spec (o : LocOracle) :
    ∀ (ps : List (String × Methods)) (st : LocState),
    (∀ e ∈ st.locs, e.2 ≠ "") →
    (∀ p ∈ getOpParams ps, p.in_ ≠ "") →
    (∀ e ∈ (locPaths o ps st).1.locs, e.2 ≠ "")
    ∧ (∀ k v, assocGet st.locs k = some v →
        assocGet (locPaths o ps st).1.locs k = some v)
    ∧ (getOpParams (locPaths o ps st).2).length = (getOpParams ps).length
    ∧ ∀ pr ∈ (getOpParams ps).zip (getOpParams (locPaths o ps st).2),
        assocGet (locPaths o ps st).1.locs pr.1.name = some pr.2.in_ := by
  intro ps
  induction ps with
  | nil =>
      intro st hinv _
      exact ⟨hinv, fun k v h => h, rfl, by intro pr hpr; simp [getOpParams] at hpr⟩
  | cons pe rest ih =>
      intro st hinv hps
      have hps1 : ∀ p ∈ pe.2.flatMap getMeParams, p.in_ ≠ "" := by
        intro p hp
        exact hps p (by
          simp only [getOpParams, List.flatMap_cons, List.mem_append]
          exact Or.inl hp)
      obtain ⟨hinv1, hmono1, hlen1, hzip1⟩ := locMethods_spec o pe.2 st hinv hps1
      obtain ⟨hinv2, hmono2, hlen2, hzip2⟩ := ih (locMethods o pe.2 st).1 hinv1
        (by
          intro p hp
          exact hps p (by
            simp only [getOpParams, List.flatMap_cons, List.mem_append]
            exact Or.inr hp))
      simp only [locPaths, getOpParams, List.flatMap_cons]
      simp only [getOpParams] at hlen2 hzip2
      refine ⟨hinv2, fun k v h => hmono2 k v (hmono1 k v h), ?_, ?_⟩
      · rw [List.length_append, List.length_append, hlen1, hlen2]
      · intro pr hpr
        rw [List.zip_append hlen1.symm] at hpr
        rcases List.mem_append.mp hpr with hpr | hpr
        · exact hmono2 _ _ (hzip1 pr hpr)
        · exact hzip2 pr hpr

/-- C4 (amended): restricted to the parameters that `permute_locations`
actually visits — those of `get` operations, with well-formed (nonempty) `in`
values — the final location is a function of the original parameter name: two
occurrences of the same name in any `get` operations of the document end up
with the same `in`.  (Parameters of non-`get` operations are not visited, so
the claim's document-wide version fails; see the counterexample.) -/
theorem c4_permute_locations_persistence (o : LocOracle) (sw : Swagger)
    (hwf : ∀ p ∈ getOpParams sw.paths, p.in_ ≠ "") :
    (getOpParams (permute_locations o sw).paths).length = (getOpParams sw.paths).length
    ∧ ∀ (i j : Nat) (pi pj qi qj : PSpec),
        (getOpParams sw.paths)[i]? = some pi →
        (getOpParams sw.paths)[j]? = some pj →
        (getOpParams (permute_locations o sw).paths)[i]? = some qi →
        (getOpParams (permute_locations o sw).paths)[j]? = some qj →
        pi.name = pj.name → qi.in_ = qj.in_ := by
  obtain ⟨hinv, hmono, hlen, hzip⟩ := locPaths_spec o sw.paths { locs := [], k := 0 }
    (by intro e he; cases he) hwf
  have hpaths : (permute_locations o sw).paths
      = (locPaths o sw.paths { locs := [], k := 0 }).2 := rfl
  constructor
  · rw [hpaths]; exact hlen
  · intro i j pi pj qi qj hpi hpj hqi hqj hname
    rw [hpaths] at hqi hqj
    have hzi : ((getOpParams sw.paths).zip
        (getOpParams (locPaths o sw.paths { locs := [], k := 0 }).2))[i]?
        = some (pi, qi) := by
      simp [List.getElem?_zip_eq_some, hpi, hqi]
    have hzj : ((getOpParams sw.paths).zip
        (getOpParams (locPaths o sw.paths { locs := [], k := 0 }).2))[j]?
        = some (pj, qj) := by
      simp [List.getElem?_zip_eq_some, hpj, hqj]
    have h1 := hzip (pi, qi) (List.getElem?_mem hzi)
    have h2 := hzip (pj, qj) (List.getElem?_mem hzj)
    simp only at h1 h2
    rw [hname] at h1
    rw [h1] at h2
    exact Option.some.inj h2

def oracleC4 : LocOracle :=
  { coins := fun _ => true, pasc := fun s => s, decam := fun s => s }

def swC4 : Swagger :=
  { paths := [("/a", [("get", some [⟨"query", "foo"⟩])]),
              ("/b", [("post", some [⟨"query", "foo"⟩])])],
    definitions := [] }

/-- C4 counterexample: the name `foo` appears in a `get` operation (moved to
`header` by a heads coin) and in a `post` operation (never visited by
`permute_locations`, stays `query`): the final `in` is NOT a function of the
parameter name across the whole document. -/
theorem c4_counterexample :
    (allOpParams (permute_locations oracleC4 swC4).paths).map PSpec.in_
        = ["header", "query"]
    ∧ (allOpParams swC4.paths).map PSpec.name = ["foo", "foo"]
    ∧ ("header" : String) ≠ "query" := by
  refine ⟨rfl, rfl, by decide⟩

def swC4W : Swagger :=
  { paths := [("/a", [("get", some [⟨"query", "foo"⟩])]),
              ("/b", [("get", some [⟨"header", "foo"⟩])])],
    definitions := [] }

theorem c4_permute_locations_persistence_witness :
    (getOpParams (permute_locations oracleC4 swC4W).paths)[0]?.map PSpec.in_
      = (getOpParams (permute_locations oracleC4 swC4W).paths)[1]?.map PSpec.in_ := by
  have h := (c4_permute_locations_persistence oracleC4 swC4W (by decide)).2 0 1
    ⟨"query", "foo"⟩ ⟨"header", "foo"⟩ ⟨"header", "foo"⟩ ⟨"header", "foo"⟩
    rfl rfl rfl rfl rfl
  rw [show (getOpParams (permute_locations oracleC4 swC4W).paths)[0]?
        = some ⟨"header", "foo"⟩ from rfl,
      show (getOpParams (permute_locations oracleC4 swC4W).paths)[1]?
        = some ⟨"header", "foo"⟩ from rfl]

/-! ## views.py: errors and `jsonify_exceptions` (lines 165-177)

Every exception escaping `proxy` is caught by the `jsonify_exceptions`
decorator (a bare `except Exception`) and serialized as a 400 JSON response —
including Django's `PermissionDenied` and `SuspiciousOperation`. -/

inductive ProxyErr where
  | permissionDenied (msg : String)
  | suspiciousOperation (msg : String)
  | assertionError (msg : String)
  | valueError (msg : String)
  | unexpectedParameter (method path loc : String) (name value : Option String)
  | attributeError
  | stopIteration
  | indexError
  | keyError (k : String)
  | typeError
deriving Repr, DecidableEq

def optStr : Option String → String
  | none => "None"
  | some s => s

def errMsg : ProxyErr → String
  | .permissionDenied m => m
  | .suspiciousOperation m => m
  | .assertionError m => m
  | .valueError m => m
  | .unexpectedParameter method path loc name value =>
      "Unexpected parameter: method=\"" ++ method ++ "\" path=\"" ++ path
        ++ "\" location=\"" ++ loc ++ "\" name=\"" ++ optStr name
        ++ "\" value=\"" ++ optStr value ++ "\""
  | .attributeError => "AttributeError"
  | .stopIteration => "StopIteration"
  | .indexError => "IndexError"
  | .keyError k => "KeyError: " ++ k
  | .typeError => "TypeError"

structure Resp where
  status : Nat
  body : JVal
deriving Repr

def jsonify_exceptions (supportEmail : String) (r : Except ProxyErr Resp) : Resp :=
  match r with
  | .ok resp => resp
  | .error e =>
      { status := 400,
        body := JVal.obj [("result", JVal.obj
          [("error", JVal.str (errMsg e)),
           ("help", JVal.str ("Please contact " ++ supportEmail
             ++ " if you think the API is misbehaving or you have any questions"))])] }

/-! ## views.py `proxy` admission (lines 182-193): abuse throttling

Failure records are `(user_id, timestamp)`; `datetime__gte=now() -
timedelta(hours=24)` keeps records with `ts ≥ now − 86400` seconds. -/

def inWindow (nowT : Int) (r : Option Nat × Int) : Bool := decide (nowT - 86400 ≤ r.2)

def isUser (userPk : Nat) (r : Option Nat × Int) : Bool := r.1 == some userPk

def proxyAdmission (nowT : Int) (failures : List (Option Nat × Int))
    (userPk : Nat) (userEmail : String) (maxFailed : Nat) : Except ProxyErr Unit :=
  if 10 ≤ (failures.filter (inWindow nowT)).length then
    .error (.permissionDenied "Proxy is currently unavailable, please try again later")
  else if userEmail = "" then
    .error (.assertionError "User has no email")
  else if maxFailed <
      (failures.filter (fun r => isUser userPk r && inWindow nowT r)).length then
    .error (.suspiciousOperation
      "Too many attempts to access Hubstaff API with wrong credentials; please wait 24h before further attempts")
  else .ok ()

/-- C7 (amended): with at least 10 failure records in the 24h window the
request is rejected with the permission-denied error; otherwise, a user with
more than MAX_FAILED_BEFORE_BLOCK windowed failures of their own is rejected
with the suspicious-operation error; both are serialized by
`jsonify_exceptions` as status 400 (not 403 — the decorator catches every
exception); and records outside the 24h window never influence the outcome. -/
theorem c7_throttling (nowT : Int) (failures : List (Option Nat × Int))
    (userPk maxFailed : Nat) (userEmail : String) (supportEmail : String) (ok : Resp) :
    (10 ≤ (failures.filter (inWindow nowT)).length →
        proxyAdmission nowT failures userPk userEmail maxFailed
          = .error (.permissionDenied "Proxy is currently unavailable, please try again later")
        ∧ (jsonify_exceptions supportEmail
            ((proxyAdmission nowT failures userPk userEmail maxFailed).map
              (fun _ => ok))).status = 400)
    ∧ ((failures.filter (inWindow nowT)).length < 10 → userEmail ≠ "" →
        maxFailed < (failures.filter (fun r => isUser userPk r && inWindow nowT r)).length →
        proxyAdmission nowT failures userPk userEmail maxFailed
          = .error (.suspiciousOperation
            "Too many attempts to access Hubstaff API with wrong credentials; please wait 24h before further attempts")
        ∧ (jsonify_exceptions supportEmail
            ((proxyAdmission nowT failures userPk userEmail maxFailed).map
              (fun _ => ok))).status = 400)
    ∧ proxyAdmission nowT (failures.filter (inWindow nowT)) userPk userEmail maxFailed
        = proxyAdmission nowT failures userPk userEmail maxFailed := by
  refine ⟨?_, ?_, ?_⟩
  · intro hg
    have hcond : proxyAdmission nowT failures userPk userEmail maxFailed
        = .error (.permissionDenied "Proxy is currently unavailable, please try again later") := by
      rw [proxyAdmission, if_pos hg]
    refine ⟨hcond, ?_⟩
    rw [hcond]
    rfl
  · intro hg hemail huser
    have hcond : proxyAdmission nowT failures userPk userEmail maxFailed
        = .error (.suspiciousOperation
          "Too many attempts to access Hubstaff API with wrong credentials; please wait 24h before further attempts") := by
      rw [proxyAdmission, if_neg (by omega), if_neg hemail, if_pos huser]
    refine ⟨hcond, ?_⟩
    rw [hcond]
    rfl
  · have hgl : (failures.filter (inWindow nowT)).filter (inWindow nowT)
        = failures.filter (inWindow nowT) := by
      rw [List.filter_filter]
      apply List.filter_congr
      intro r _
      rw [Bool.and_self]
    have hus : (failures.filter (inWindow nowT)).filter
          (fun r => isUser userPk r && inWindow nowT r)
        = failures.filter (fun r => isUser userPk r && inWindow nowT r) := by
      rw [List.filter_filter]
      apply List.filter_congr
      intro r _
      cases h1 : isUser userPk r <;> cases h2 : inWindow nowT r <;> simp [h1, h2]
    rw [proxyAdmission, proxyAdmission, hgl, hus]

def failuresC7 : List (Option Nat × Int) := List.replicate 10 (some 1, 1000)

/-- C7 counterexample: with 10 windowed failures the client sees status 400
(the `jsonify_exceptions` wrapper serializes `PermissionDenied` like any other
exception), not the claimed 403. -/
theorem c7_counterexample :
    (jsonify_exceptions "support@example.com"
        ((proxyAdmission 1000 failuresC7 2 "u@example.com" 3).map
          (fun _ => { status := 200, body := JVal.null }))).status = 400
    ∧ (400 : Nat) ≠ 403 := by
  exact ⟨rfl, by decide⟩

theorem c7_throttling_witness :
    proxyAdmission 1000 failuresC7 2 "u@example.com" 3
      = .error (.permissionDenied "Proxy is currently unavailable, please try again later") :=
  ((c7_throttling 1000 failuresC7 2 3 "u@example.com" "support@example.com"
    { status := 200, body := JVal.null }).1 (by decide)).1

/-! ## views.py `_request_to_params` (lines 119-138)

The observed request: a synthetic path parameter, then one entry per HTTP
header, POST form field and query argument, collected into a dict keyed by
`Parameter`.  The function never reads `request.body` nor any content type:
`rawBody` and `contentType` are carried in the model to state exactly that. -/

structure HttpReq where
  path : String
  method : String
  headers : List (String × String)
  post : List (String × String)
  query : List (String × String)
  contentType : Option String
  rawBody : Option String
deriving Repr

def request_to_params (r : HttpReq) : List (Parameter × Option String) :=
  let base : List (Parameter × Option String) :=
    [(⟨r.path, some (pyLower r.method), some "path", none⟩, none)]
  let withHeaders := r.headers.foldl (fun acc hv =>
      dictInsert acc ⟨r.path, some (pyLower r.method), some "header", some hv.1⟩
        (some hv.2)) base
  let withPost := r.post.foldl (fun acc pv =>
      dictInsert acc ⟨r.path, some (pyLower r.method), some "formData", some pv.1⟩
        (some pv.2)) withHeaders
  r.query.foldl (fun acc gv =>
      dictInsert acc ⟨r.path, some (pyLower r.method), some "query", some gv.1⟩
        (some gv.2)) withPost

theorem dictInsert_mem_keys {α β : Type} [BEq α] [LawfulBEq α] {l : List (α × β)}
    {k : α} {v : β}
    {e : α × β} (h : e ∈ dictInsert l k v) :
    (∃ e0 ∈ l, e.1 = e0.1) ∨ e.1 = k := by
  rw [dictInsert] at h
  split at h
  · rcases List.mem_map.mp h with ⟨e0, he0, heq⟩
    by_cases hk : (e0.1 == k) = true
    · rw [if_pos hk] at heq
      right
      rw [← heq]
      exact eq_of_beq hk
    · rw [if_neg hk] at heq
      left
      exact ⟨e0, he0, by rw [← heq]⟩
  · rcases List.mem_append.mp h with h | h
    · exact Or.inl ⟨e, h, rfl⟩
    · simp only [List.mem_singleton] at h
      right
      rw [h]

theorem foldIns_keys {α β γ : Type} [BEq α] [LawfulBEq α] (f : γ → α) (g : γ → β) :
    ∀ (xs : List γ) (acc : List (α × β)) (e : α × β),
      e ∈ xs.foldl (fun acc x => dictInsert acc (f x) (g x)) acc →
      (∃ e0 ∈ acc, e.1 = e0.1) ∨ ∃ x ∈ xs, e.1 = f x := by
  intro xs
  induction xs with
  | nil => intro acc e h; exact Or.inl ⟨e, h, rfl⟩
  | cons x rest ih =>
      intro acc e h
      rw [List.foldl_cons] at h
      rcases ih (dictInsert acc (f x) (g x)) e h with ⟨e0, he0, hkey⟩ | ⟨y, hy, hkey⟩
      · rcases dictInsert_mem_keys he0 with ⟨e1, he1, hkey1⟩ | hkey1
        · exact Or.inl ⟨e1, he1, hkey.trans hkey1⟩
        · exact Or.inr ⟨x, List.mem_cons_self _ _, hkey.trans hkey1⟩
      · exact Or.inr ⟨y, List.mem_cons_of_mem _ hy, hkey⟩

theorem dictInsert_head {α β : Type} [BEq α] {e0 : α × β} {l : List (α × β)} {k : α}
    (v : β) (hne : (e0.1 == k) = false) :
    (dictInsert (e0 :: l) k v).head? = some e0 := by
  rw [dictInsert]
  split
  · simp [hne]
  · simp

theorem foldIns_head {α β γ : Type} [BEq α] (f : γ → α) (g : γ → β) :
    ∀ (xs : List γ) (e0 : α × β) (l : List (α × β)),
      (∀ x ∈ xs, (e0.1 == f x) = false) →
      ∃ l', xs.foldl (fun acc x => dictInsert acc (f x) (g x)) (e0 :: l) = e0 :: l' := by
  intro xs
  induction xs with
  | nil => intro e0 l _; exact ⟨l, rfl⟩
  | cons x rest ih =>
      intro e0 l hx
      rw [List.foldl_cons]
      have hne := hx x (List.mem_cons_self _ _)
      have hhead := dictInsert_head (l := l) (g x) hne
      cases hd : dictInsert (e0 :: l) (f x) (g x) with
      | nil => rw [hd] at hhead; simp at hhead
      | cons e1 l1 =>
          rw [hd] at hhead
          simp only [List.head?_cons, Option.some.injEq] at hhead
          rw [hhead]
          exact ih e0 l1 (fun y hy => hx y (List.mem_cons_of_mem _ hy))

theorem parameter_beq_false_of_in_ne {a b : Parameter} (h : a.in_ ≠ b.in_) :
    (a == b) = false := by
  rw [beq_eq_false_iff_ne]
  intro hab
  exact h (by rw [hab])

/-- C8 (amended): `_request_to_params` never reads the request body: its
result is independent of the raw body and content type, every produced
parameter is located in `path`, `header`, `formData` or `query` (never
`body`), and the synthetic path parameter is always the first entry.  There is
no JSON decoding and no `BadBody` rejection anywhere in the function. -/
theorem c8_request_to_params_ignores_body (r : HttpReq) :
    (∀ b ct, request_to_params { r with rawBody := b, contentType := ct }
        = request_to_params r)
    ∧ (∀ e ∈ request_to_params r,
        e.1.in_ = some "path" ∨ e.1.in_ = some "header"
          ∨ e.1.in_ = some "formData" ∨ e.1.in_ = some "query")
    ∧ (request_to_params r).head?
        = some (⟨r.path, some (pyLower r.method), some "path", none⟩, none) := by
  refine ⟨fun b ct => rfl, ?_, ?_⟩
  · intro e he
    rw [request_to_params] at he
    rcases foldIns_keys (fun gv : String × String =>
        (⟨r.path, some (pyLower r.method), some "query", some gv.1⟩ : Parameter))
        (fun gv => some gv.2) r.query _ e he with ⟨e1, he1, hk1⟩ | ⟨x, _, hk⟩
    · rcases foldIns_keys (fun pv : String × String =>
          (⟨r.path, some (pyLower r.method), some "formData", some pv.1⟩ : Parameter))
          (fun pv => some pv.2) r.post _ e1 he1 with ⟨e2, he2, hk2⟩ | ⟨x, _, hk⟩
      · rcases foldIns_keys (fun hv : String × String =>
            (⟨r.path, some (pyLower r.method), some "header", some hv.1⟩ : Parameter))
            (fun hv => some hv.2) r.headers _ e2 he2 with ⟨e3, he3, hk3⟩ | ⟨x, _, hk⟩
        · simp only [List.mem_singleton] at he3
          left
          rw [hk1, hk2, hk3, he3]
        · right; left
          rw [hk1, hk2, hk]
      · right; right; left
        rw [hk1, hk]
    · right; right; right
      rw [hk]
  · rw [request_to_params]
    have hh := foldIns_head (fun hv : String × String =>
        (⟨r.path, some (pyLower r.method), some "header", some hv.1⟩ : Parameter))
        (fun hv => some hv.2) r.headers
        (⟨r.path, some (pyLower r.method), some "path", none⟩, none) []
        (fun x _ => parameter_beq_false_of_in_ne (by simp))
    obtain ⟨l1, hl1⟩ := hh
    rw [hl1]
    have hp := foldIns_head (fun pv : String × String =>
        (⟨r.path, some (pyLower r.method), some "formData", some pv.1⟩ : Parameter))
        (fun pv => some pv.2) r.post
        (⟨r.path, some (pyLower r.method), some "path", none⟩, none) l1
        (fun x _ => parameter_beq_false_of_in_ne (by simp))
    obtain ⟨l2, hl2⟩ := hp
    rw [hl2]
    have hq := foldIns_head (fun gv : String × String =>
        (⟨r.path, some (pyLower r.method), some "query", some gv.1⟩ : Parameter))
        (fun gv => some gv.2) r.query
        (⟨r.path, some (pyLower r.method), some "path", none⟩, none) l2
        (fun x _ => parameter_beq_false_of_in_ne (by simp))
    obtain ⟨l3, hl3⟩ := hq
    rw [hl3]
    rfl

def reqC8 : HttpReq :=
  { path := "/v1/people", method := "POST", headers := [("Content-Type", "application/json")],
    post := [], query := [],
    contentType := some "application/json",
    rawBody := some "JSON body with top-level key email" }

/-- C8 counterexample: a request carrying a JSON body whose declared content
type is JSON produces NO `body`-located parameter at all — the claimed
decoding of top-level body keys into `Parameter(path, method, 'body', key)`
does not exist in `_request_to_params` (and neither does `BadBody`). -/
theorem c8_counterexample :
    request_to_params reqC8
      = [(⟨"/v1/people", some "post", some "path", none⟩, none),
         (⟨"/v1/people", some "post", some "header", some "Content-Type"⟩,
          some "application/json")]
    ∧ (request_to_params reqC8).all
        (fun e => !(e.1.in_ == some "body")) = true := by
  exact ⟨rfl, rfl⟩

/-! ## views.py `proxy` reversal loop (lines 199-223)

Each observed parameter is `mixer.reverse`d.  On success, a canonical `path`
parameter gets its value extracted from the observed path through the
permuted definition's `re_path` regex (with an `assert` that the template has
at most one placeholder, and `next(iter(...))` on the captures).  On
`ValueError`, `path`/`header` parameters are silently dropped; anything else
re-raises with the method, path, location, name and value. -/

def reverseStep (m : ApiMixer) (acc : List (Parameter × Option String))
    (e : Parameter × Option String) : Except ProxyErr (List (Parameter × Option String)) :=
  match m.reverse e.1 with
  | .ok (pdef, restored) =>
      if restored.in_ = some "path" then
        match reMatchG (re_path pdef.path) e.1.path.data with
        | none => .error .attributeError
        | some caps =>
            if 1 < caps.length then
              .error (.assertionError "Multiple path parameters not supported")
            else
              match caps.head? with
              | none => .error .stopIteration
              | some cap => .ok (dictInsert acc restored (some cap.2))
      else .ok (dictInsert acc restored e.2)
  | .error .valueError =>
      if e.1.in_ = some "path" ∨ e.1.in_ = some "header" then .ok acc
      else .error (.unexpectedParameter (pyUpper (optStr e.1.method)) e.1.path
            (pyUpper (optStr e.1.in_)) e.1.name e.2)
  | .error .indexError => .error .indexError

def reverseLoop (m : ApiMixer) (obs : List (Parameter × Option String)) :
    Except ProxyErr (List (Parameter × Option String)) :=
  obs.foldlM (reverseStep m) []

/-- Decides whether an observed entry is silently dropped by the loop. -/
def droppedB (m : ApiMixer) (e : Parameter × Option String) : Bool :=
  (match m.reverse e.1 with
   | .error .valueError => true
   | _ => false)
  && (e.1.in_ == some "path" || e.1.in_ == some "header")

/-- The error a step raises, independent of the accumulated dict. -/
def stepErr? (m : ApiMixer) (e : Parameter × Option String) : Option ProxyErr :=
  match m.reverse e.1 with
  | .ok (pdef, restored) =>
      if restored.in_ = some "path" then
        match reMatchG (re_path pdef.path) e.1.path.data with
        | none => some .attributeError
        | some caps =>
            if 1 < caps.length then
              some (.assertionError "Multiple path parameters not supported")
            else
              match caps.head? with
              | none => some .stopIteration
              | some _ => none
      else none
  | .error .valueError =>
      if e.1.in_ = some "path" ∨ e.1.in_ = some "header" then none
      else some (.unexpectedParameter (pyUpper (optStr e.1.method)) e.1.path
            (pyUpper (optStr e.1.in_)) e.1.name e.2)
  | .error .indexError => some .indexError

theorem reverseStep_err (m : ApiMixer) (acc : List (Parameter × Option String))
    (e : Parameter × Option String) {er : ProxyErr} (h : stepErr? m e = some er) :
    reverseStep m acc e = .error er := by
  cases hrev : m.reverse e.1 with
  | ok pr =>
      obtain ⟨pdef, restored⟩ := pr
      simp only [stepErr?, hrev] at h
      simp only [reverseStep, hrev]
      by_cases hin : restored.in_ = some "path"
      · simp only [if_pos hin] at h ⊢
        cases hm : reMatchG (re_path pdef.path) e.1.path.data with
        | none => simp only [hm] at h ⊢; cases h; rfl
        | some caps =>
            simp only [hm] at h ⊢
            by_cases hlen : 1 < caps.length
            · simp only [if_pos hlen] at h ⊢; cases h; rfl
            · simp only [if_neg hlen] at h ⊢
              cases hh : caps.head? with
              | none => simp only [hh] at h ⊢; cases h; rfl
              | some cap => simp only [hh] at h; cases h
      · simp only [if_neg hin] at h; cases h
  | error re =>
      cases re with
      | valueError =>
          simp only [stepErr?, hrev] at h
          simp only [reverseStep, hrev]
          by_cases hig : e.1.in_ = some "path" ∨ e.1.in_ = some "header"
          · simp only [if_pos hig] at h; cases h
          · simp only [if_neg hig] at h ⊢; cases h; rfl
      | indexError =>
          simp only [stepErr?, hrev] at h
          simp only [reverseStep, hrev]
          cases h; rfl

theorem reverseStep_ok (m : ApiMixer) (acc : List (Parameter × Option String))
    (e : Parameter × Option String) (h : stepErr? m e = none) :
    ∃ acc2, reverseStep m acc e = .ok acc2 := by
  cases hrev : m.reverse e.1 with
  | ok pr =>
      obtain ⟨pdef, restored⟩ := pr
      simp only [stepErr?, hrev] at h
      simp only [reverseStep, hrev]
      by_cases hin : restored.in_ = some "path"
      · simp only [if_pos hin] at h ⊢
        cases hm : reMatchG (re_path pdef.path) e.1.path.data with
        | none => simp only [hm] at h; cases h
        | some caps =>
            simp only [hm] at h ⊢
            by_cases hlen : 1 < caps.length
            · simp only [if_pos hlen] at h; cases h
            · simp only [if_neg hlen] at h ⊢
              cases hh : caps.head? with
              | none => simp only [hh] at h; cases h
              | some cap => simp only [hh]; exact ⟨_, rfl⟩
      · simp only [if_neg hin]; exact ⟨_, rfl⟩
  | error re =>
      cases re with
      | valueError =>
          simp only [stepErr?, hrev] at h
          simp only [reverseStep, hrev]
          by_cases hig : e.1.in_ = some "path" ∨ e.1.in_ = some "header"
          · simp only [if_pos hig]; exact ⟨acc, rfl⟩
          · simp only [if_neg hig] at h; cases h
      | indexError =>
          simp only [stepErr?, hrev] at h
          cases h

theorem reverseStep_dropped (m : ApiMixer) (acc : List (Parameter × Option String))
    (e : Parameter × Option String) (h : droppedB m e = true) :
    reverseStep m acc e = .ok acc := by
  rw [droppedB, Bool.and_eq_true] at h
  obtain ⟨h1, h2⟩ := h
  have hig : e.1.in_ = some "path" ∨ e.1.in_ = some "header" := by
    rcases Bool.or_eq_true _ _ |>.mp h2 with h2 | h2
    · exact Or.inl (eq_of_beq h2)
    · exact Or.inr (eq_of_beq h2)
  cases hrev : m.reverse e.1 with
  | ok pr => rw [hrev] at h1; simp at h1
  | error re =>
      cases re with
      | valueError =>
          simp only [reverseStep, hrev]
          rw [if_pos hig]
      | indexError => rw [hrev] at h1; simp at h1

theorem reverseLoop_skips_dropped_aux (m : ApiMixer) :
    ∀ (obs : List (Parameter × Option String)) (acc : List (Parameter × Option String)),
      obs.foldlM (reverseStep m) acc
        = (obs.filter (fun e => !droppedB m e)).foldlM (reverseStep m) acc := by
  intro obs
  induction obs with
  | nil => intro acc; rfl
  | cons e rest ih =>
      intro acc
      rw [List.foldlM_cons]
      cases hd : droppedB m e with
      | true =>
          rw [List.filter_cons_of_neg (by rw [hd]; decide)]
          rw [reverseStep_dropped m acc e hd]
          exact ih acc
      | false =>
          rw [List.filter_cons_of_pos (by rw [hd]; decide)]
          rw [List.foldlM_cons]
          cases hs : reverseStep m acc e with
          | error er => rfl
          | ok acc' => exact ih acc'

theorem reverseLoop_first_error_aux (m : ApiMixer) {er : ProxyErr} :
    ∀ (obs : List (Parameter × Option String)) (acc : List (Parameter × Option String))
      (i : Nat) (ei : Parameter × Option String),
      obs[i]? = some ei →
      (∀ (j : Nat) (ej : Parameter × Option String), j < i → obs[j]? = some ej →
        stepErr? m ej = none) →
      stepErr? m ei = some er →
      obs.foldlM (reverseStep m) acc = .error er := by
  intro obs
  induction obs with
  | nil => intro acc i ei h; simp at h
  | cons e rest ih =>
      intro acc i ei hei hprev herr
      cases i with
      | zero =>
          simp only [List.getElem?_cons_zero, Option.some.injEq] at hei
          cases hei
          rw [List.foldlM_cons, reverseStep_err m acc _ herr]
          rfl
      | succ i =>
          have h0 : stepErr? m e = none := hprev 0 e (Nat.succ_pos _) (by simp)
          obtain ⟨acc2, hacc2⟩ := reverseStep_ok m acc e h0
          rw [List.foldlM_cons, hacc2]
          exact ih acc2 i ei (by simpa using hei)
            (fun j ej hj hje => hprev (j + 1) ej (by omega) (by simpa using hje)) herr

/-- C9: per-entry handling of reversal failures. Silently dropped entries
(failed reversal at a `path`/`header` location) do not affect the loop at all;
the first failing entry at any other location aborts the whole request with
the `UnexpectedParameter` error carrying method, path, location, name and
value, which `jsonify_exceptions` serializes with status 400 and the detail
message. -/
theorem c9_unexpected_parameter (m : ApiMixer) (obs : List (Parameter × Option String))
    (supportEmail : String) :
    (reverseLoop m obs = reverseLoop m (obs.filter (fun e => !droppedB m e)))
    ∧ ∀ (i : Nat) (ei : Parameter × Option String),
        obs[i]? = some ei →
        (∀ (j : Nat) (ej : Parameter × Option String), j < i → obs[j]? = some ej →
          stepErr? m ej = none) →
        m.reverse ei.1 = .error .valueError →
        ¬(ei.1.in_ = some "path" ∨ ei.1.in_ = some "header") →
        reverseLoop m obs = .error (.unexpectedParameter (pyUpper (optStr ei.1.method))
            ei.1.path (pyUpper (optStr ei.1.in_)) ei.1.name ei.2)
        ∧ (jsonify_exceptions supportEmail
            (.error (.unexpectedParameter (pyUpper (optStr ei.1.method))
              ei.1.path (pyUpper (optStr ei.1.in_)) ei.1.name ei.2))).status = 400 := by
  constructor
  · exact reverseLoop_skips_dropped_aux m obs []
  · intro i ei hei hprev hrev hig
    have herr : stepErr? m ei = some (.unexpectedParameter (pyUpper (optStr ei.1.method))
        ei.1.path (pyUpper (optStr ei.1.in_)) ei.1.name ei.2) := by
      rw [stepErr?, hrev, if_neg hig]
    exact ⟨reverseLoop_first_error_aux m obs [] i ei hei hprev herr, rfl⟩

theorem c9_unexpected_parameter_witness :
    reverseLoop mixC1W [(⟨"/v3/users", some "get", some "query", some "bogus"⟩, some "1")]
      = .error (.unexpectedParameter "GET" "/v3/users" "QUERY" (some "bogus") (some "1")) := by
  have h := (c9_unexpected_parameter mixC1W
      [(⟨"/v3/users", some "get", some "query", some "bogus"⟩, some "1")] "s@example.com").2
    0 (⟨"/v3/users", some "get", some "query", some "bogus"⟩, some "1") rfl
    (fun j ej hj _ => absurd hj (Nat.not_lt_zero j))
    (by rfl)
    (by decide)
  exact h.1

/-- C10: when a reversed parameter has location `path`, the step computes the
permuted template's capture dict and asserts it has at most one entry: a
template with two or more placeholders aborts the request with the
`AssertionError` (serialized as status 400 by `jsonify_exceptions`); a
single-placeholder template passes the check and processing continues.  The
permutation engine itself accepts such paths: `permute_paths` passes any
`{...}` segment through unchanged. -/
theorem c10_multiple_path_placeholders (m : ApiMixer)
    (obs : List (Parameter × Option String)) (supportEmail : String) :
    (∀ (i : Nat) (ei : Parameter × Option String) (pdef restored : Parameter)
        (caps : List (String × String)),
        obs[i]? = some ei →
        (∀ (j : Nat) (ej : Parameter × Option String), j < i → obs[j]? = some ej →
          stepErr? m ej = none) →
        m.reverse ei.1 = .ok (pdef, restored) →
        restored.in_ = some "path" →
        reMatchG (re_path pdef.path) ei.1.path.data = some caps →
        2 ≤ countHoles (re_path pdef.path) →
        reverseLoop m obs = .error (.assertionError "Multiple path parameters not supported")
        ∧ (jsonify_exceptions supportEmail
            (.error (.assertionError "Multiple path parameters not supported"))).status = 400)
    ∧ (∀ (ei : Parameter × Option String) (pdef restored : Parameter)
        (caps : List (String × String)),
        m.reverse ei.1 = .ok (pdef, restored) →
        restored.in_ = some "path" →
        reMatchG (re_path pdef.path) ei.1.path.data = some caps →
        countHoles (re_path pdef.path) = 1 →
        stepErr? m ei = none)
    ∧ (∀ (syn : List (String × List String)) (seed : Nat)
        (tbl : List (String × String)) (part : String),
        isPlaceholderSeg part = true →
        permutePart syn seed tbl part = .ok (part, tbl)) := by
  refine ⟨?_, ?_, ?_⟩
  · intro i ei pdef restored caps hei hprev hrev hin hm hholes
    have hcaps : caps.length = countHoles (re_path pdef.path) := reMatchG_caps_length hm
    have herr : stepErr? m ei = some (.assertionError "Multiple path parameters not supported") := by
      simp only [stepErr?, hrev, if_pos hin, hm, if_pos (by omega : 1 < caps.length)]
    exact ⟨reverseLoop_first_error_aux m obs [] i ei hei hprev herr, rfl⟩
  · intro ei pdef restored caps hrev hin hm hone
    have hcaps : caps.length = countHoles (re_path pdef.path) := reMatchG_caps_length hm
    have hlen : caps.length = 1 := by omega
    simp only [stepErr?, hrev, if_pos hin, hm, if_neg (by omega : ¬1 < caps.length)]
    cases caps with
    | nil => simp at hlen
    | cons c rest => rfl
  · intro syn seed tbl part hpl
    have hcopy := hpl
    rw [isPlaceholderSeg, Bool.and_eq_true] at hcopy
    obtain ⟨h1, h2⟩ := hcopy
    have hne : part ≠ "" := by
      intro he
      subst he
      simp at h1
    have hver : isVersionSeg part = false := by
      rw [isVersionSeg]
      cases hd : part.data with
      | nil => rfl
      | cons c0 rest =>
          rw [hd] at h1
          simp only [List.head?_cons] at h1
          have hc0 : c0 = '{' := by
            have h1e := eq_of_beq h1
            exact Option.some.inj h1e
          cases rest with
          | nil => rfl
          | cons c1 rest2 =>
              subst hc0
              simp
    rw [permutePart, if_neg hne, if_neg (by rw [hver]; decide), if_pos hpl]

def swC10 : Swagger :=
  { paths := [("/v1/users/{uid}/posts/{pid}", [("get", some [⟨"path", "uid"⟩])])],
    definitions := [] }

def mixC10 : ApiMixer := (mkApiMixer synC1 oracleC4 5 swC10).toOption.getD default

theorem c10_multiple_path_placeholders_witness :
    reverseLoop mixC10 [(⟨"/v5/users/7/posts/9", some "get", some "path", none⟩, none)]
      = .error (.assertionError "Multiple path parameters not supported") := by
  have h := (c10_multiple_path_placeholders mixC10
      [(⟨"/v5/users/7/posts/9", some "get", some "path", none⟩, none)] "s@example.com").1
    0 (⟨"/v5/users/7/posts/9", some "get", some "path", none⟩, none)
    ⟨"/v5/users/{uid}/posts/{pid}", some "get", some "path", some "uid"⟩
    ⟨"/v1/users/{uid}/posts/{pid}", some "get", some "path", some "uid"⟩
    [("uid", "7"), ("pid", "9")]
    rfl (fun j ej hj _ => absurd hj (Nat.not_lt_zero j))
    (by rfl) rfl (by rfl) (by decide)
  exact h.1

/-! ## permutations.py `personal_filter_result_processor` (lines 265-305)

Python dict/list indexing and `in` checks on JSON values, with their failure
modes (`KeyError` on a missing key, `TypeError` on indexing a non-dict,
substring semantics of `'x' in somestring`). -/

def listIsInfix (needle hay : List Char) : Bool :=
  (List.range (hay.length + 1)).any (fun i => needle.isPrefixOf (hay.drop i))

/-- Python `value[k]` for JSON values. -/
def jGet (v : JVal) (k : String) : Except ProxyErr JVal :=
  match v with
  | .obj entries =>
      match assocGet entries k with
      | some x => .ok x
      | none => .error (.keyError k)
  | _ => .error .typeError

/-- Python `k in value`: key membership for dicts, element membership for
lists, substring for strings, `TypeError` otherwise. -/
def jContains (needle : String) (v : JVal) : Except ProxyErr Bool :=
  match v with
  | .obj entries => .ok (assocHas entries needle)
  | .arr items => .ok (items.contains (JVal.str needle))
  | .str s => .ok (listIsInfix needle.data s.data)
  | _ => .error .typeError

def jList : JVal → Except ProxyErr (List JVal)
  | .arr l => .ok l
  | _ => .error .typeError

def mapME (f : JVal → Except ProxyErr JVal) : List JVal → Except ProxyErr (List JVal)
  | [] => .ok []
  | x :: xs =>
      match f x with
      | .error e => .error e
      | .ok y =>
          match mapME f xs with
          | .error e => .error e
          | .ok rest => .ok (y :: rest)

def filterME (f : JVal → Except ProxyErr Bool) : List JVal → Except ProxyErr (List JVal)
  | [] => .ok []
  | x :: xs =>
      match f x with
      | .error e => .error e
      | .ok b =>
          match filterME f xs with
          | .error e => .error e
          | .ok rest => .ok (if b then x :: rest else rest)

structure UserRec where
  email : String
  checkPassword : Option String → Bool
  app_token : String
  auth_token : String

structure Meta where
  user : UserRec
  user_data : JVal

/-- The allowed values computed before the loop: `meta['user_data']['id']`,
organization names, project names and project ids. -/
def metaExtract (meta : Meta) : Except ProxyErr (JVal × List JVal × List JVal × List JVal) := do
  let uid ← jGet meta.user_data "id"
  let orgs ← jList (← jGet meta.user_data "organizations")
  let onames ← mapME (fun o => jGet o "name") orgs
  let projs ← jList (← jGet meta.user_data "projects")
  let pnames ← mapME (fun o => jGet o "name") projs
  let pids ← mapME (fun o => jGet o "id") projs
  pure (uid, onames, pnames, pids)

/-- Lazy Python condition `'user' in content[0] and 'email' in
content[0]['user']`. -/
def userCond (h : JVal) : Except ProxyErr Bool :=
  match jContains "user" h with
  | .error e => .error e
  | .ok false => .ok false
  | .ok true =>
      match jGet h "user" with
      | .error e => .error e
      | .ok hu => jContains "email" hu

/-- One `(key, content)` entry of the loop body: non-lists and empty lists
pass through; otherwise the rule is selected from the first element. -/
def filterEntry (email : String) (uid : JVal) (onames pnames pids : List JVal)
    (key : String) (content : JVal) : Except ProxyErr JVal :=
  match content with
  | .arr (h :: t) =>
      match jContains "email" h with
      | .error e => .error e
      | .ok true =>
          (filterME (fun it =>
            match jGet it "email" with
            | .error e => .error e
            | .ok v => .ok (v == JVal.str email)) (h :: t)).map JVal.arr
      | .ok false =>
          match userCond h with
          | .error e => .error e
          | .ok true =>
              (filterME (fun it =>
                match jGet it "user" with
                | .error e => .error e
                | .ok u =>
                    match jGet u "email" with
                    | .error e => .error e
                    | .ok v => .ok (v == JVal.str email)) (h :: t)).map JVal.arr
          | .ok false =>
              if key = "organizations" then
                (filterME (fun it =>
                  match jGet it "name" with
                  | .error e => .error e
                  | .ok v => .ok (onames.contains v)) (h :: t)).map JVal.arr
              else if key = "projects" then
                (filterME (fun it =>
                  match jGet it "name" with
                  | .error e => .error e
                  | .ok v => .ok (pnames.contains v)) (h :: t)).map JVal.arr
              else
                match jContains "user_id" h with
                | .error e => .error e
                | .ok true =>
                    (filterME (fun it =>
                      match jGet it "user_id" with
                      | .error e => .error e
                      | .ok v => .ok (v == uid)) (h :: t)).map JVal.arr
                | .ok false =>
                    match jContains "project_id" h with
                    | .error e => .error e
                    | .ok true =>
                        (filterME (fun it =>
                          match jGet it "project_id" with
                          | .error e => .error e
                          | .ok v => .ok (pids.contains v)) (h :: t)).map JVal.arr
                    | .ok false => .ok content
  | _ => .ok content

def mapEntriesME (f : String → JVal → Except ProxyErr JVal) :
    List (String × JVal) → Except ProxyErr (List (String × JVal))
  | [] => .ok []
  | e :: es =>
      match f e.1 e.2 with
      | .error er => .error er
      | .ok c =>
          match mapEntriesME f es with
          | .error er => .error er
          | .ok rest => .ok ((e.1, c) :: rest)

/-- The personal filter: asserts the payload is a dict, computes the allowed
values, then rebuilds the dict entry by entry. -/
def personal_filter_result_processor (meta : Meta) (data : JVal) : Except ProxyErr JVal :=
  match data with
  | .obj entries =>
      match metaExtract meta with
      | .error e => .error e
      | .ok (uid, onames, pnames, pids) =>
          (mapEntriesME (filterEntry meta.user.email uid onames pnames pids) entries).map
            JVal.obj
  | _ => .error (.assertionError "personal filter input is not a dict")

/-- `permute_result_processor`: wrap as `{result: ...}`. -/
def permute_result_processor (result : JVal) : JVal := JVal.obj [("result", result)]

/-! ## Claim C6: declarative description of the personal filter -/

/-- Total, failure-free field presence test used by the declarative filter
description (agrees with `jContains` whenever the latter succeeds). -/
def specHas (needle : String) (v : JVal) : Bool :=
  match v with
  | .obj entries => assocHas entries needle
  | .arr items => items.contains (JVal.str needle)
  | .str s => listIsInfix needle.data s.data
  | _ => false

/-- Total field lookup (agrees with `jGet` whenever the latter succeeds). -/
def jGetOpt (v : JVal) (k : String) : Option JVal :=
  match v with
  | .obj entries => assocGet entries k
  | _ => none

/-- Modelled from the spec: the claim's keep-rules for one `(key, list)`
entry, selected from the fields of the first element — items with `email`
kept iff it equals the caller's email; else items with `user.email` likewise;
else key `organizations`/`projects` kept iff the name is among the user's;
else `user_id` must equal the user's id; else `project_id` must be among the
user's project ids; anything else (and non-lists) passes through unchanged. -/
def specEntryFilter (email : String) (uid : JVal) (onames pnames pids : List JVal)
    (key : String) (content : JVal) : JVal :=
  match content with
  | .arr (h :: t) =>
      if specHas "email" h then
        .arr ((h :: t).filter (fun it => jGetOpt it "email" == some (JVal.str email)))
      else if specHas "user" h && specHas "email" ((jGetOpt h "user").getD .null) then
        .arr ((h :: t).filter (fun it =>
          ((jGetOpt it "user").bind (fun u => jGetOpt u "email")) == some (JVal.str email)))
      else if key = "organizations" then
        .arr ((h :: t).filter (fun it => (jGetOpt it "name").elim false (fun v => onames.contains v)))
      else if key = "projects" then
        .arr ((h :: t).filter (fun it => (jGetOpt it "name").elim false (fun v => pnames.contains v)))
      else if specHas "user_id" h then
        .arr ((h :: t).filter (fun it => jGetOpt it "user_id" == some uid))
      else if specHas "project_id" h then
        .arr ((h :: t).filter (fun it => (jGetOpt it "project_id").elim false (fun v => pids.contains v)))
      else content
  | _ => content

theorem jContains_ok {needle : String} {v : JVal} {b : Bool}
    (h : jContains needle v = .ok b) : specHas needle v = b := by
  cases v with
  | null => simp [jContains] at h
  | bool b2 => simp [jContains] at h
  | num n => simp [jContains] at h
  | str s => simp only [jContains, Except.ok.injEq] at h; rw [specHas, h]
  | arr items => simp only [jContains, Except.ok.injEq] at h; rw [specHas, h]
  | obj entries => simp only [jContains, Except.ok.injEq] at h; rw [specHas, h]

theorem jGet_ok {v : JVal} {k : String} {x : JVal}
    (h : jGet v k = .ok x) : jGetOpt v k = some x := by
  cases v with
  | obj entries =>
      rw [jGet] at h
      rw [jGetOpt]
      cases hget : assocGet entries k with
      | none => rw [hget] at h; cases h
      | some y => rw [hget] at h; cases h; rfl
  | null => simp [jGet] at h
  | bool b2 => simp [jGet] at h
  | num n => simp [jGet] at h
  | str s => simp [jGet] at h
  | arr l => simp [jGet] at h

theorem filterME_ok {f : JVal → Except ProxyErr Bool} {g : JVal → Bool}
    (hfg : ∀ x b, f x = .ok b → g x = b) :
    ∀ {items out : List JVal}, filterME f items = .ok out → out = items.filter g := by
  intro items
  induction items with
  | nil => intro out h; cases h; rfl
  | cons x xs ih =>
      intro out h
      rw [filterME] at h
      cases hfx : f x with
      | error e => rw [hfx] at h; cases h
      | ok b =>
          rw [hfx] at h
          cases hrec : filterME f xs with
          | error e => rw [hrec] at h; cases h
          | ok rest =>
              rw [hrec] at h
              cases h
              rw [List.filter_cons, hfg x b hfx, ih hrec]

theorem filterME_map_arr_ok {f : JVal → Except ProxyErr Bool} {g : JVal → Bool}
    {items : List JVal} {c : JVal}
    (hfg : ∀ x b, f x = .ok b → g x = b)
    (h : (filterME f items).map JVal.arr = .ok c) : c = .arr (items.filter g) := by
  cases hme : filterME f items with
  | error e => rw [hme] at h; cases h
  | ok out =>
      rw [hme] at h
      cases h
      rw [filterME_ok hfg hme]

theorem mapEntriesME_ok {f : String → JVal → Except ProxyErr JVal} {g : String → JVal → JVal}
    (hfg : ∀ k c r, f k c = .ok r → r = g k c) :
    ∀ {es : List (String × JVal)} {out : List (String × JVal)},
      mapEntriesME f es = .ok out → out = es.map (fun e => (e.1, g e.1 e.2)) := by
  intro es
  induction es with
  | nil => intro out h; cases h; rfl
  | cons e rest ih =>
      intro out h
      rw [mapEntriesME] at h
      cases hfe : f e.1 e.2 with
      | error er => rw [hfe] at h; cases h
      | ok c =>
          rw [hfe] at h
          cases hrec : mapEntriesME f rest with
          | error er => rw [hrec] at h; cases h
          | ok rest2 =>
              rw [hrec] at h
              cases h
              rw [List.map_cons, ← ih hrec, ← hfg e.1 e.2 c hfe]

theorem userCond_ok {h1 : JVal} {b : Bool} (h : userCond h1 = .ok b) :
    (specHas "user" h1 && specHas "email" ((jGetOpt h1 "user").getD .null)) = b := by
  rw [userCond] at h
  cases hc : jContains "user" h1 with
  | error e => rw [hc] at h; cases h
  | ok hu =>
      have hs := jContains_ok hc
      cases hu with
      | false =>
          rw [hc] at h
          cases h
          rw [hs]
          rfl
      | true =>
          rw [hc] at h
          cases hg : jGet h1 "user" with
          | error e => rw [hg] at h; cases h
          | ok u =>
              rw [hg] at h
              have := jContains_ok h
              rw [hs, jGet_ok hg]
              simpa using this

theorem filterEntry_spec {email : String} {uid : JVal} {onames pnames pids : List JVal}
    {key : String} {content c : JVal}
    (h : filterEntry email uid onames pnames pids key content = .ok c) :
    c = specEntryFilter email uid onames pnames pids key content := by
  cases content with
  | null => simp only [filterEntry] at h; cases h; rfl
  | bool b => simp only [filterEntry] at h; cases h; rfl
  | num n => simp only [filterEntry] at h; cases h; rfl
  | str s => simp only [filterEntry] at h; cases h; rfl
  | obj es => simp only [filterEntry] at h; cases h; rfl
  | arr items =>
      cases items with
      | nil => simp only [filterEntry] at h; cases h; rfl
      | cons h1 t =>
          simp only [filterEntry] at h
          simp only [specEntryFilter]
          cases hc1 : jContains "email" h1 with
          | error e => simp only [hc1] at h; cases h
          | ok b1 =>
              simp only [hc1] at h
              have hs1 := jContains_ok hc1
              cases b1 with
              | true =>
                  rw [if_pos hs1]
                  exact filterME_map_arr_ok (fun x b hx => by
                    cases hg : jGet x "email" with
                    | error e => simp only [hg] at hx; cases hx
                    | ok v =>
                        simp only [hg] at hx
                        cases hx
                        rw [jGet_ok hg]
                        rfl) h
              | false =>
                  rw [if_neg (by simp [hs1])]
                  cases hc2 : userCond h1 with
                  | error e => simp only [hc2] at h; cases h
                  | ok b2 =>
                      simp only [hc2] at h
                      have hs2 := userCond_ok hc2
                      cases b2 with
                      | true =>
                          rw [if_pos hs2]
                          exact filterME_map_arr_ok (fun x b hx => by
                            cases hg1 : jGet x "user" with
                            | error e => simp only [hg1] at hx; cases hx
                            | ok u =>
                                simp only [hg1] at hx
                                cases hg2 : jGet u "email" with
                                | error e => simp only [hg2] at hx; cases hx
                                | ok v =>
                                    simp only [hg2] at hx
                                    cases hx
                                    simp [jGet_ok hg1, jGet_ok hg2]) h
                      | false =>
                          rw [if_neg (by simp [hs2])]
                          by_cases hk1 : key = "organizations"
                          · simp only [if_pos hk1] at h ⊢
                            exact filterME_map_arr_ok (fun x b hx => by
                              cases hg : jGet x "name" with
                              | error e => simp only [hg] at hx; cases hx
                              | ok v =>
                                  simp only [hg] at hx
                                  cases hx
                                  rw [jGet_ok hg]
                                  rfl) h
                          · simp only [if_neg hk1] at h ⊢
                            by_cases hk2 : key = "projects"
                            · simp only [if_pos hk2] at h ⊢
                              exact filterME_map_arr_ok (fun x b hx => by
                                cases hg : jGet x "name" with
                                | error e => simp only [hg] at hx; cases hx
                                | ok v =>
                                    simp only [hg] at hx
                                    cases hx
                                    rw [jGet_ok hg]
                                    rfl) h
                            · simp only [if_neg hk2] at h ⊢
                              cases hc3 : jContains "user_id" h1 with
                              | error e => simp only [hc3] at h; cases h
                              | ok b3 =>
                                  simp only [hc3] at h
                                  have hs3 := jContains_ok hc3
                                  cases b3 with
                                  | true =>
                                      rw [if_pos hs3]
                                      exact filterME_map_arr_ok (fun x b hx => by
                                        cases hg : jGet x "user_id" with
                                        | error e => simp only [hg] at hx; cases hx
                                        | ok v =>
                                            simp only [hg] at hx
                                            cases hx
                                            rw [jGet_ok hg]
                                            rfl) h
                                  | false =>
                                      rw [if_neg (by simp [hs3])]
                                      cases hc4 : jContains "project_id" h1 with
                                      | error e => simp only [hc4] at h; cases h
                                      | ok b4 =>
                                          simp only [hc4] at h
                                          have hs4 := jContains_ok hc4
                                          cases b4 with
                                          | true =>
                                              rw [if_pos hs4]
                                              exact filterME_map_arr_ok (fun x b hx => by
                                                cases hg : jGet x "project_id" with
                                                | error e => simp only [hg] at hx; cases hx
                                                | ok v =>
                                                    simp only [hg] at hx
                                                    cases hx
                                                    rw [jGet_ok hg]
                                                    rfl) h
                                          | false =>
                                              rw [if_neg (by simp [hs4])]
                                              cases h
                                              rfl

/-- C6: whenever the personal filter succeeds on a top-level mapping, its
output is exactly the entry-wise filter described by the claim: for each
`(key, list)` entry the kept items are selected by the rule chosen from the
first element (`email`, then `user.email`, then the `organizations` /
`projects` key rules, then `user_id`, then `project_id`), all compared
against the caller's identity from `meta`; unmatched lists and non-list
values pass through unchanged. -/
theorem c6_personal_filter (meta : Meta) (entries : List (String × JVal)) (out : JVal)
    (hf : personal_filter_result_processor meta (.obj entries) = .ok out) :
    ∃ (uid : JVal) (onames pnames pids : List JVal),
      metaExtract meta = .ok (uid, onames, pnames, pids)
      ∧ out = .obj (entries.map (fun e =>
          (e.1, specEntryFilter meta.user.email uid onames pnames pids e.1 e.2))) := by
  rw [personal_filter_result_processor] at hf
  cases hx : metaExtract meta with
  | error e => rw [hx] at hf; cases hf
  | ok ex =>
      obtain ⟨uid, onames, pnames, pids⟩ := ex
      rw [hx] at hf
      have hf2 : Except.map JVal.obj
          (mapEntriesME (filterEntry meta.user.email uid onames pnames pids) entries)
          = .ok out := hf
      refine ⟨uid, onames, pnames, pids, rfl, ?_⟩
      cases hme : mapEntriesME (filterEntry meta.user.email uid onames pnames pids) entries with
      | error er => rw [hme] at hf2; cases hf2
      | ok out2 =>
          rw [hme] at hf2
          cases hf2
          rw [mapEntriesME_ok (fun k c r hr => filterEntry_spec hr) hme]

def userC6 : UserRec :=
  { email := "a@b", checkPassword := fun _ => false, app_token := "t", auth_token := "s" }

def metaC6 : Meta :=
  { user := userC6,
    user_data := .obj [("id", .num 5),
      ("organizations", .arr [.obj [("name", .str "O")]]),
      ("projects", .arr [.obj [("name", .str "P"), ("id", .num 9)]])] }

def entriesC6 : List (String × JVal) :=
  [("users", .arr [.obj [("email", .str "a@b")], .obj [("email", .str "c@d")]]),
   ("count", .num 2)]

def outC6 : JVal :=
  (personal_filter_result_processor metaC6 (.obj entriesC6)).toOption.getD .null

theorem c6_personal_filter_witness :
    outC6 = .obj (entriesC6.map (fun e =>
      (e.1, specEntryFilter "a@b" (.num 5) [.str "O"] [.str "P"] [.num 9] e.1 e.2))) := by
  obtain ⟨uid, onames, pnames, pids, hx, hout⟩ :=
    c6_personal_filter metaC6 entriesC6 outC6 rfl
  have hval : (Except.ok (uid, onames, pnames, pids) : Except ProxyErr _)
      = .ok ((.num 5 : JVal), ([.str "O"] : List JVal),
             ([.str "P"] : List JVal), ([.num 9] : List JVal)) :=
    hx.symm.trans rfl
  simp only [Except.ok.injEq, Prod.mk.injEq] at hval
  obtain ⟨h1, h2, h3, h4⟩ := hval
  subst h1
  subst h2
  subst h3
  subst h4
  exact hout

/-! ## views.py `_params_to_request` (lines 141-162) and the `/v1/auth`
shortcut (lines 229-250)

The upstream request groups the canonical parameters by location; the path is
`path.format(**path_params)`.  If the resulting URL is exactly
`https://api.hubstaff.com/v1/auth`, the proxy never forwards: it checks the
`email` / `password` fields of `request.data` — the FORM-data group — and the
`App-Token` header against the local user record, and on success feeds the
fixed body through the result processors with status 200. -/

structure UpRequest where
  method : Option String
  url : String
  headers : List (Option String × Option String)
  jsonBody : List (Option String × Option String)
  query : List (Option String × Option String)
  formData : List (Option String × Option String)
deriving Repr, Inhabited

def groupParams (loc : String) (ps : List (Parameter × Option String)) :
    List (Option String × Option String) :=
  dictOfList (ps.filterMap (fun e =>
    if e.1.in_ == some loc then some (e.1.name, e.2) else none))

def formatToks (vals : List (Option String × Option String)) :
    List Tok → Except ProxyErr String
  | [] => .ok ""
  | .lit c :: ts =>
      match formatToks vals ts with
      | .error e => .error e
      | .ok s => .ok (String.mk [c] ++ s)
  | .hole n :: ts =>
      match assocGet vals (some n) with
      | none => .error (.keyError n)
      | some v =>
          match formatToks vals ts with
          | .error e => .error e
          | .ok s => .ok (optStr v ++ s)

def params_to_request (host : String) (ps : List (Parameter × Option String)) :
    Except ProxyErr UpRequest :=
  match ps with
  | [] => .error (.valueError "No payload provided (no headers or parameters)")
  | first :: _ =>
      if ps.all (fun e => e.1.path == first.1.path && e.1.method == first.1.method) then
        match formatToks (groupParams "path" ps)
            (tokenizeF first.1.path.data.length first.1.path.data) with
        | .error e => .error e
        | .ok path =>
            .ok { method := first.1.method, url := host ++ path,
                  headers := groupParams "header" ps,
                  jsonBody := groupParams "body" ps,
                  query := groupParams "query" ps,
                  formData := groupParams "formData" ps }
      else .error (.assertionError "Inconsistent parameters")

inductive ProxyOutcome where
  | forward (req : UpRequest)
  | localResp (resp : Resp)
deriving Repr

/-- The fake auth payload returned instead of contacting upstream. -/
def authResult (user : UserRec) : JVal :=
  .obj [("id", .null), ("name", .null), ("last_activity", .null),
        ("auth_token", .str user.auth_token)]

/-- Python `somedict.get(k, '')` over the request groups. -/
def getWithDefaultEmpty (l : List (Option String × Option String)) (k : String) :
    Option String :=
  match assocGet l (some k) with
  | none => some ""
  | some v => v

/-- Python `somedict.get(k)` (default `None`). -/
def getNoDefault (l : List (Option String × Option String)) (k : String) : Option String :=
  match assocGet l (some k) with
  | none => none
  | some v => v

def proxyDispatchStage (user : UserRec) (meta : Meta) (req : UpRequest) :
    Except ProxyErr ProxyOutcome :=
  if req.url = "https://api.hubstaff.com/v1/auth" then
    if ¬(getWithDefaultEmpty req.formData "email" = some user.email) then
      .error (.valueError ("Wrong email provided: "
        ++ optStr (getWithDefaultEmpty req.formData "email")))
    else if ¬(user.checkPassword (getNoDefault req.formData "password") = true) then
      .error (.valueError "Password mismatch")
    else if ¬(getWithDefaultEmpty req.headers "App-Token" = some user.app_token) then
      .error (.valueError "App-Token mismatch")
    else
      match personal_filter_result_processor meta (authResult user) with
      | .error e => .error e
      | .ok r1 => .ok (.localResp ⟨200, permute_result_processor r1⟩)
  else .ok (.forward req)

theorem personal_filter_auth (meta : Meta) (user : UserRec)
    {ex : JVal × List JVal × List JVal × List JVal}
    (hx : metaExtract meta = .ok ex) :
    personal_filter_result_processor meta (authResult user) = .ok (authResult user) := by
  obtain ⟨uid, onames, pnames, pids⟩ := ex
  simp only [personal_filter_result_processor, authResult, hx]
  rfl

/-- C5 (amended): when the rebuilt canonical URL is
`https://api.hubstaff.com/v1/auth` the pipeline never forwards; it verifies
the `email` and `password` fields of the FORM-data group (`request.data`) —
not the JSON body — against the local user record and the `App-Token` header
against the stored app token, failing with the corresponding `ValueError` on
the first mismatch in that order; on success (and with the user metadata
well-formed for the personal filter) it returns status 200 with
`{result: {id: null, name: null, last_activity: null, auth_token: <stored auth
token>}}`, the fixed body fed through both result processors. -/
theorem c5_auth_shortcut (user : UserRec) (meta : Meta) (req : UpRequest)
    (hurl : req.url = "https://api.hubstaff.com/v1/auth") :
    (∀ r, proxyDispatchStage user meta req ≠ .ok (.forward r))
    ∧ (getWithDefaultEmpty req.formData "email" ≠ some user.email →
        proxyDispatchStage user meta req = .error (.valueError ("Wrong email provided: "
          ++ optStr (getWithDefaultEmpty req.formData "email"))))
    ∧ (getWithDefaultEmpty req.formData "email" = some user.email →
        user.checkPassword (getNoDefault req.formData "password") = false →
        proxyDispatchStage user meta req = .error (.valueError "Password mismatch"))
    ∧ (getWithDefaultEmpty req.formData "email" = some user.email →
        user.checkPassword (getNoDefault req.formData "password") = true →
        getWithDefaultEmpty req.headers "App-Token" ≠ some user.app_token →
        proxyDispatchStage user meta req = .error (.valueError "App-Token mismatch"))
    ∧ (∀ ex : JVal × List JVal × List JVal × List JVal, metaExtract meta = .ok ex →
        getWithDefaultEmpty req.formData "email" = some user.email →
        user.checkPassword (getNoDefault req.formData "password") = true →
        getWithDefaultEmpty req.headers "App-Token" = some user.app_token →
        proxyDispatchStage user meta req
          = .ok (.localResp ⟨200, .obj [("result", authResult user)]⟩)) := by
  refine ⟨?_, ?_, ?_, ?_, ?_⟩
  · intro r hr
    rw [proxyDispatchStage, if_pos hurl] at hr
    split at hr
    · cases hr
    · split at hr
      · cases hr
      · split at hr
        · cases hr
        · split at hr
          · cases hr
          · cases hr
  · intro hne
    rw [proxyDispatchStage, if_pos hurl, if_pos hne]
  · intro he hpw
    rw [proxyDispatchStage, if_pos hurl, if_neg (not_not_intro he),
      if_pos (by simp [hpw])]
  · intro he hpw hat
    rw [proxyDispatchStage, if_pos hurl, if_neg (not_not_intro he),
      if_neg (not_not_intro hpw), if_pos hat]
  · intro ex hx he hpw hat
    rw [proxyDispatchStage, if_pos hurl, if_neg (not_not_intro he),
      if_neg (not_not_intro hpw), if_neg (not_not_intro hat),
      personal_filter_auth meta user hx]
    rfl

def psC5 : List (Parameter × Option String) :=
  [(⟨"/v1/auth", some "post", some "body", some "email"⟩, some "alice@example.com"),
   (⟨"/v1/auth", some "post", some "body", some "password"⟩, some "pw"),
   (⟨"/v1/auth", some "post", some "header", some "App-Token"⟩, some "tok")]

def userC5 : UserRec :=
  { email := "alice@example.com", checkPassword := fun p => p == some "pw",
    app_token := "tok", auth_token := "secret" }

def metaC5 : Meta :=
  { user := userC5,
    user_data := .obj [("id", .num 1), ("organizations", .arr []),
      ("projects", .arr [])] }

def reqC5 : UpRequest :=
  (params_to_request "https://api.hubstaff.com" psC5).toOption.getD default

/-- C5 counterexample: canonical parameters carrying the correct email,
password and App-Token — but with email and password located in `body` (the
JSON group) rather than `formData` — are rejected with "Wrong email
provided": the code reads `request.data` (the form-data group), not the JSON
body, so the claim's "verifies the body's email and password" fails. -/
theorem c5_counterexample :
    params_to_request "https://api.hubstaff.com" psC5 = .ok reqC5
    ∧ assocGet reqC5.jsonBody (some "email") = some (some "alice@example.com")
    ∧ userC5.email = "alice@example.com"
    ∧ userC5.checkPassword (some "pw") = true
    ∧ assocGet reqC5.headers (some "App-Token") = some (some "tok")
    ∧ userC5.app_token = "tok"
    ∧ reqC5.url = "https://api.hubstaff.com/v1/auth"
    ∧ proxyDispatchStage userC5 metaC5 reqC5
        = .error (.valueError "Wrong email provided: ") := by
  refine ⟨rfl, rfl, rfl, rfl, rfl, rfl, rfl, rfl⟩

def psC5W : List (Parameter × Option String) :=
  [(⟨"/v1/auth", some "post", some "formData", some "email"⟩, some "alice@example.com"),
   (⟨"/v1/auth", some "post", some "formData", some "password"⟩, some "pw"),
   (⟨"/v1/auth", some "post", some "header", some "App-Token"⟩, some "tok")]

def reqC5W : UpRequest :=
  (params_to_request "https://api.hubstaff.com" psC5W).toOption.getD default

theorem c5_auth_shortcut_witness :
    proxyDispatchStage userC5 metaC5 reqC5W
      = .ok (.localResp ⟨200, .obj [("result", authResult userC5)]⟩) :=
  (c5_auth_shortcut userC5 metaC5 reqC5W rfl).2.2.2.2
    ((.num 1, [], [], []) : JVal × List JVal × List JVal × List JVal) rfl rfl rfl rfl

theorem c8_request_to_params_ignores_body_witness :
    (request_to_params reqC8).head?
      = some (⟨"/v1/people", some "post", some "path", none⟩, none) :=
  (c8_request_to_params_ignores_body reqC8).2.2

end ApiMutator
